import Mathlib

/-!
# OpenKNX flash driver (src/OpenKNX/Flash/Driver.cpp)

A shallow embedding of the buffered sector driver.  The RP2040 branch of the
source is the one embedded (the branch that programs the flash in chunks of
FLASH_PAGE_SIZE bytes).

* Memory regions reached through a pointer (the physical flash, the sector
  buffer, a caller's source or destination array) are functions from an index
  to a byte.
* uint16_t and uint32_t values are natural numbers, truncated with `u16` and
  `u32` wherever the source stores a value in a variable of that type.
* Loops and the recursion of `write` run on fuel; a result of `none` stands
  for a run that does not come back (or that leaves the sector buffer).
* Every physical erase and program call, and every memset or memcpy into the
  sector buffer, is recorded in a log carried by the state.
-/

namespace OpenKNX.Flash

/-- A byte, the uint8_t of the source. -/
abbrev Byte := Fin 256

/-- Truncation of a value stored in a uint16_t. -/
def u16 (x : Nat) : Nat := x % 65536

/-- Truncation of a value stored in a uint32_t. -/
def u32 (x : Nat) : Nat := x % 4294967296

/-- The members of Driver fixed by the constructor, with the two constants the
source takes from the platform headers: `sectorSize` is FLASH_SECTOR_SIZE and
`pageSize` is FLASH_PAGE_SIZE. -/
structure Driver where
  offset : Nat
  size : Nat
  sectorSize : Nat
  startFree : Nat
  endFree : Nat
  pageSize : Nat

/-- What the log records: the two physical calls and the writes into the
sector buffer done by the body of `write`. -/
inductive Event where
  | erase (addr len : Nat)
  | program (addr len : Nat)
  | bufferWrite (sector pos len : Nat)
  deriving DecidableEq

/-- The mutable part: the physical flash (indexed by flash offset, the address
behind XIP_BASE), the sector buffer `_buffer` with `allocated` telling whether
it is not the null pointer, `_bufferSector`, and the log. -/
structure State where
  flash : Nat → Byte
  buffer : Nat → Byte
  allocated : Bool
  bufferSector : Nat
  log : List Event

/-- The four fatal errors of validateParameters. -/
inductive FatalError where
  | sizeUnaligned
  | offsetUnaligned
  | endBehindFreeFlash
  | offsetBeforeFreeFlash
  deriving DecidableEq

/-- Driver::validateParameters; fatalError does not come back, so the first
failing test decides. -/
def validateParameters (d : Driver) : Except FatalError Unit :=
  if d.size % d.sectorSize ≠ 0 then Except.error FatalError.sizeUnaligned
  else if d.offset % d.sectorSize ≠ 0 then Except.error FatalError.offsetUnaligned
  else if d.size > d.endFree then Except.error FatalError.endBehindFreeFlash
  else if d.offset < d.startFree then Except.error FatalError.offsetBeforeFreeFlash
  else Except.ok ()

/-- The C library memcmp, as the truth value of its result: true when the
first `n` bytes differ somewhere. -/
def memcmp (a b : Nat → Byte) (n : Nat) : Bool :=
  (List.range n).any fun i => a i != b i

/-- The C library memset on the region `dst`, from index `pos`. -/
def memset (dst : Nat → Byte) (pos : Nat) (value : Byte) (n : Nat) : Nat → Byte :=
  fun i => if pos ≤ i ∧ i < pos + n then value else dst i

/-- The C library memcpy on the region `dst`, from index `pos`. -/
def memcpy (dst : Nat → Byte) (pos : Nat) (src : Nat → Byte) (n : Nat) : Nat → Byte :=
  fun i => if pos ≤ i ∧ i < pos + n then src (i - pos) else dst i

/-- Modelled from the spec: the physical erase of the flash device
(flash_range_erase of the platform SDK) resets every byte of the range to the
erased value 0xFF. -/
def flash_range_erase (fl : Nat → Byte) (addr len : Nat) : Nat → Byte :=
  fun a => if addr ≤ a ∧ a < addr + len then 0xFF else fl a

/-- Modelled from the spec: the physical program call of the flash device
(flash_range_program of the platform SDK) can only clear bits, the data is
ANDed into the bytes already there. -/
def flash_range_program (fl : Nat → Byte) (addr : Nat) (data : Nat → Byte) (len : Nat) :
    Nat → Byte :=
  fun a => if addr ≤ a ∧ a < addr + len then fl a &&& data (a - addr) else fl a

/-- The region `flashAddress() + sector * _sectorSize` of the source: the
product is a uint32_t, the sum is pointer arithmetic. -/
def sectorData (d : Driver) (fl : Nat → Byte) (sector : Nat) : Nat → Byte :=
  fun i => fl (d.offset + u32 (sector * d.sectorSize) + i)

/-- Driver::sectorOfRelativeAddress, with its uint16_t result. -/
def sectorOfRelativeAddress (d : Driver) (relativeAddress : Nat) : Nat :=
  u16 (relativeAddress / d.sectorSize)

/-- Driver::needEraseSector. -/
def needEraseSector (d : Driver) (st : State) (sector : Nat) : Bool :=
  (List.range d.sectorSize).any fun i => sectorData d st.flash sector i != 0xFF

/-- Driver::needWriteSector. -/
def needWriteSector (d : Driver) (st : State) : Bool :=
  memcmp st.buffer (sectorData d st.flash st.bufferSector) d.sectorSize

/-- Driver::needEraseForBuffer.  The operand `~flashByte` is an int; ANDed
with a byte only its low eight bits count, which are `255 - flashByte`. -/
def needEraseForBuffer (d : Driver) (st : State) : Bool :=
  (List.range d.sectorSize).any fun i =>
    let flashByte := sectorData d st.flash st.bufferSector i
    let bufferByte := st.buffer i
    bufferByte != flashByte && (bufferByte.val &&& (255 - flashByte.val)) != 0

/-- Driver::eraseSector. -/
def eraseSector (d : Driver) (st : State) (sector : Nat) : State :=
  if !needEraseSector d st sector then st
  else
    { st with
      flash := flash_range_erase st.flash (u32 (d.offset + sector * d.sectorSize)) d.sectorSize
      log := st.log ++ [Event.erase (u32 (d.offset + sector * d.sectorSize)) d.sectorSize] }

/-- The inner while loop of Driver::writeSector: the chunk grows by one page
as long as the page behind it differs from the flash, and stops at the end of
the sector.  The result is the final `currentSize`. -/
def scanChunk (d : Driver) (st : State) (currentPosition : Nat) : Nat → Nat → Option Nat
  | 0, _ => none
  | fuel + 1, currentSize =>
    if memcmp (fun i => st.buffer (currentPosition + currentSize + i))
        (fun i => sectorData d st.flash st.bufferSector (currentPosition + currentSize + i))
        d.pageSize then
      let currentSize := u32 (currentSize + d.pageSize)
      if u32 (currentPosition + currentSize) = d.sectorSize then some currentSize
      else scanChunk d st currentPosition fuel currentSize
    else some currentSize

/-- The outer while loop of Driver::writeSector. -/
def programChunks (d : Driver) : Nat → State → Nat → Option State
  | 0, _, _ => none
  | fuel + 1, st, currentPosition =>
    if currentPosition < d.sectorSize then
      match scanChunk d st currentPosition (d.sectorSize + 1) 0 with
      | none => none
      | some currentSize =>
        let st1 :=
          if currentSize > 0 then
            { st with
              flash := flash_range_program st.flash
                (u32 (d.offset + st.bufferSector * d.sectorSize + currentPosition))
                (fun i => st.buffer (currentPosition + i)) currentSize
              log := st.log ++
                [Event.program (u32 (d.offset + st.bufferSector * d.sectorSize + currentPosition))
                  currentSize] }
          else st
        programChunks d fuel st1 (u32 (currentPosition + currentSize + d.pageSize))
    else some st

/-- Driver::writeSector.  Both loops advance by a page per round, so more than
`sectorSize` rounds happen only when the page size is 0 or the scan has left
the sector; the fuel is `sectorSize + 1`. -/
def writeSector (d : Driver) (st : State) : Option State :=
  if !needWriteSector d st then some st
  else
    let st1 := if needEraseForBuffer d st then eraseSector d st st.bufferSector else st
    programChunks d (d.sectorSize + 1) st1 0

/-- Driver::commit. -/
def commit (d : Driver) (st : State) : Option State :=
  if !st.allocated then some st
  else writeSector d st

/-- Driver::loadSector. -/
def loadSector (d : Driver) (st : State) (sector : Nat) (force : Bool) : Option State :=
  if !force && st.allocated && sector == st.bufferSector then some st
  else
    match (if st.allocated && sector != st.bufferSector then commit d st else some st) with
    | none => none
    | some st1 =>
      some { st1 with
        allocated := true
        bufferSector := sector
        buffer := memcpy st1.buffer 0 (sectorData d st1.flash sector) d.sectorSize }

/-- The recursion of Driver::write(uint32_t, uint8_t, uint32_t), the overload
that fills with a value.  The locals of type uint16_t are truncated as the
source does; `_sectorSize - bufferPosition` cannot go below 0 since the
position is a remainder modulo the sector size. -/
def writeFuel (d : Driver) : Nat → State → Nat → Byte → Nat → Option (Nat × State)
  | 0, _, _, _, _ => none
  | fuel + 1, st, relativeAddress, value, size =>
    if size ≤ 0 then some (relativeAddress, st)
    else
      let sector := sectorOfRelativeAddress d relativeAddress
      match loadSector d st sector false with
      | none => none
      | some st1 =>
        let bufferPosition := u16 (relativeAddress % d.sectorSize)
        let writeMaxSize := u16 (d.sectorSize - bufferPosition)
        let overheadSize := if writeMaxSize < size then u16 (size - writeMaxSize) else 0
        let writeSize := if writeMaxSize < size then writeMaxSize else u16 size
        let st2 :=
          { st1 with
            buffer := memset st1.buffer bufferPosition value writeSize
            log := st1.log ++ [Event.bufferWrite sector bufferPosition writeSize] }
        if overheadSize > 0 then
          writeFuel d fuel st2 (u32 (relativeAddress + writeSize)) value overheadSize
        else some (u32 (relativeAddress + size), st2)

/-- Driver::write(uint32_t, uint8_t, uint32_t).  Each recursive call has a
smaller size unless it has the same one for ever, so `size + 1` calls are
enough whenever the source comes back. -/
def write (d : Driver) (st : State) (relativeAddress : Nat) (value : Byte) (size : Nat) :
    Option (Nat × State) :=
  writeFuel d (size + 1) st relativeAddress value size

/-- The recursion of Driver::write(uint32_t, uint8_t *, uint32_t), the overload
that copies from a source array. -/
def writeBytesFuel (d : Driver) : Nat → State → Nat → (Nat → Byte) → Nat → Option (Nat × State)
  | 0, _, _, _, _ => none
  | fuel + 1, st, relativeAddress, buffer, size =>
    if size ≤ 0 then some (relativeAddress, st)
    else
      let sector := sectorOfRelativeAddress d relativeAddress
      match loadSector d st sector false with
      | none => none
      | some st1 =>
        let bufferPosition := u16 (relativeAddress % d.sectorSize)
        let writeMaxSize := u16 (d.sectorSize - bufferPosition)
        let overheadSize := if writeMaxSize < size then u16 (size - writeMaxSize) else 0
        let writeSize := if writeMaxSize < size then writeMaxSize else u16 size
        let st2 :=
          { st1 with
            buffer := memcpy st1.buffer bufferPosition buffer writeSize
            log := st1.log ++ [Event.bufferWrite sector bufferPosition writeSize] }
        if overheadSize > 0 then
          writeBytesFuel d fuel st2 (u32 (relativeAddress + writeSize))
            (fun i => buffer (writeSize + i)) overheadSize
        else some (u32 (relativeAddress + size), st2)

/-- Driver::write(uint32_t, uint8_t *, uint32_t). -/
def writeBytes (d : Driver) (st : State) (relativeAddress : Nat) (buffer : Nat → Byte)
    (size : Nat) : Option (Nat × State) :=
  writeBytesFuel d (size + 1) st relativeAddress buffer size

/-- Driver::read: the returned address, the destination array after the
memcpy, and the state, which the function does not touch. -/
def read (d : Driver) (st : State) (relativeAddress : Nat) (output : Nat → Byte) (size : Nat) :
    Nat × (Nat → Byte) × State :=
  (u32 (relativeAddress + 1),
    memcpy output 0 (fun i => st.flash (d.offset + relativeAddress + i)) size, st)

/-- A byte from the low eight bits of a number. -/
def byteOf (x : Nat) : Byte := ⟨x % 256, Nat.mod_lt x (by decide)⟩

/-- The array behind the cast `(uint8_t *)&value` on the little-endian hosts
of the source (both targets are ARM Cortex-M0+): byte `i` holds bits
`8 * i` to `8 * i + 7` of the value. -/
def bytesOf (value : Nat) : Nat → Byte := fun i => byteOf (value / 256 ^ i)

/-- The value of a variable of `n` bytes read back through such a cast. -/
def valueOf (bytes : Nat → Byte) : Nat → Nat
  | 0 => 0
  | n + 1 => valueOf bytes n + (bytes n).val * 256 ^ n

/-- Driver::writeByte. -/
def writeByte (d : Driver) (st : State) (relativeAddress : Nat) (value : Byte) :
    Option (Nat × State) :=
  writeBytes d st relativeAddress (bytesOf value.val) 1

/-- Driver::writeWord; the parameter is a uint16_t. -/
def writeWord (d : Driver) (st : State) (relativeAddress : Nat) (value : Nat) :
    Option (Nat × State) :=
  writeBytes d st relativeAddress (bytesOf (u16 value)) 2

/-- Driver::writeInt; the parameter is a uint32_t. -/
def writeInt (d : Driver) (st : State) (relativeAddress : Nat) (value : Nat) :
    Option (Nat × State) :=
  writeBytes d st relativeAddress (bytesOf (u32 value)) 4

/-- Driver::readByte: the local starts as 0 and read fills it. -/
def readByte (d : Driver) (st : State) (relativeAddress : Nat) : Byte :=
  (read d st relativeAddress (bytesOf 0) 1).2.1 0

/-- Driver::readWord. -/
def readWord (d : Driver) (st : State) (relativeAddress : Nat) : Nat :=
  valueOf (read d st relativeAddress (bytesOf 0) 2).2.1 2

/-- Driver::readInt. -/
def readInt (d : Driver) (st : State) (relativeAddress : Nat) : Nat :=
  valueOf (read d st relativeAddress (bytesOf 0) 4).2.1 4

/-- The erase and program calls of a log. -/
def physicalCalls (log : List Event) : List Event :=
  log.filter fun e =>
    match e with
    | Event.bufferWrite _ _ _ => false
    | _ => true

/-- The erase calls of a log. -/
def eraseCalls (log : List Event) : List Event :=
  log.filter fun e =>
    match e with
    | Event.erase _ _ => true
    | _ => false

/-- The writes into the sector buffer of a log. -/
def bufferWrites (log : List Event) : List Event :=
  log.filter fun e =>
    match e with
    | Event.bufferWrite _ _ _ => true
    | _ => false

/-- A small driver for examples: four sectors of four bytes, pages of two. -/
def tiny : Driver :=
  { offset := 4, size := 16, sectorSize := 4, startFree := 0, endFree := 64, pageSize := 2 }

/-- An RP2040 driver: eighteen sectors of 4096 bytes, pages of 256 bytes. -/
def rp2040 : Driver :=
  { offset := 0x10000, size := 0x12000, sectorSize := 0x1000, startFree := 0x8000,
    endFree := 0x100000, pageSize := 0x100 }

/-- A region of one sector that starts where the free flash ends. -/
def misplaced : Driver :=
  { offset := 0x1000, size := 0x1000, sectorSize := 0x1000, startFree := 0,
    endFree := 0x1000, pageSize := 0x100 }

/-- The driver of the scenario: two sectors of 0x1000 bytes at 0x10000. -/
def scenario (startFree endFree pageSize : Nat) : Driver :=
  { offset := 0x10000, size := 0x2000, sectorSize := 0x1000, startFree := startFree,
    endFree := endFree, pageSize := pageSize }

/-- A source array of zero bytes. -/
def zeros : Nat → Byte := fun _ => 0

/-- A state of the small driver with sector 1 cached and the buffer equal to
the flash. -/
def cleanState : State :=
  { flash := fun _ => 0x0F, buffer := fun _ => 0x0F, allocated := true, bufferSector := 1,
    log := [] }

/-- A state of the small driver with sector 1 cached, the flash erased and
the buffer modified. -/
def dirtyState : State :=
  { flash := fun _ => 0xFF, buffer := fun i => if i = 2 then 0x12 else 0xFF, allocated := true,
    bufferSector := 1, log := [] }

/-- A state of the small driver with sector 1 cached whose buffer asks for
bits that the flash has cleared. -/
def staleState : State :=
  { flash := fun _ => 0x0F, buffer := fun _ => 0xF0, allocated := true, bufferSector := 1,
    log := [] }

/-- A freshly constructed driver over the given flash: no buffer yet. -/
def fresh (fl : Nat → Byte) : State :=
  { flash := fl, buffer := fun _ => 0, allocated := false, bufferSector := 0, log := [] }

/-- Assumptions on the platform constants: a sector size that a uint16_t
holds, and a page size that divides it. -/
structure Platform (d : Driver) : Prop where
  sector_pos : 0 < d.sectorSize
  sector_lt : d.sectorSize < 65536
  page_pos : 0 < d.pageSize
  page_dvd : d.pageSize ∣ d.sectorSize

/-- The sector index fits a uint16_t and the sector lies inside the 32-bit
address range of the flash. -/
def SectorOk (d : Driver) (s : Nat) : Prop :=
  s < 65536 ∧ d.offset + (s + 1) * d.sectorSize ≤ 4294967296

instance (d : Driver) (s : Nat) : Decidable (SectorOk d s) := by
  unfold SectorOk
  infer_instance

instance (d : Driver) : Decidable (Platform d) :=
  decidable_of_iff
    (0 < d.sectorSize ∧ d.sectorSize < 65536 ∧ 0 < d.pageSize ∧ d.pageSize ∣ d.sectorSize)
    ⟨fun h => ⟨h.1, h.2.1, h.2.2.1, h.2.2.2⟩, fun h => ⟨h.1, h.2, h.3, h.4⟩⟩

/-- The flash offset of the first byte of a sector. -/
def sectorBase (d : Driver) (s : Nat) : Nat := d.offset + s * d.sectorSize

/-- A log extended by physical program calls only. -/
def OnlyPrograms (evs : List Event) : Prop := ∀ e ∈ evs, ∃ a n, e = Event.program a n

/-- The logical contents of the flash: the sector buffer laid over the cached
sector, the physical flash elsewhere. -/
def view (d : Driver) (st : State) : Nat → Byte :=
  fun a =>
    if st.allocated = true ∧ sectorBase d st.bufferSector ≤ a ∧
        a < sectorBase d st.bufferSector + d.sectorSize then
      st.buffer (a - sectorBase d st.bufferSector)
    else st.flash a

/-- A driver state whose cached sector, if there is one, lies inside the
32-bit address range. -/
def WF (d : Driver) (st : State) : Prop :=
  st.allocated = true → SectorOk d st.bufferSector

instance (d : Driver) (st : State) : Decidable (WF d st) := by
  unfold WF
  infer_instance

/-- The events a commit may add: program calls, and an erase of the cached
sector that is only there when both erase tests of the source ask for it. -/
def CommitEvents (d : Driver) (st : State) (evs : List Event) : Prop :=
  ∀ e ∈ evs, (∃ a n, e = Event.program a n) ∨
    (e = Event.erase (u32 (d.offset + st.bufferSector * d.sectorSize)) d.sectorSize ∧
      needEraseForBuffer d st = true ∧ needEraseSector d st st.bufferSector = true)

/-- Events that are physical calls, none of them a write into the buffer. -/
def PhysicalOnly (evs : List Event) : Prop :=
  ∀ e ∈ evs, (∃ a n, e = Event.program a n) ∨ (∃ a n, e = Event.erase a n)

/-- What the proofs use of a validly constructed driver: the size is
sector-aligned (validateParameters tests it), the region lies inside the
32-bit address range of the flash and has no more sectors than a uint16_t
counts. -/
structure Valid (d : Driver) : Prop where
  platform : Platform d
  aligned : d.sectorSize ∣ d.size
  fits : d.offset + d.size ≤ 4294967296
  sectors : d.size ≤ 65536 * d.sectorSize

instance (d : Driver) : Decidable (Valid d) :=
  decidable_of_iff
    (Platform d ∧ d.sectorSize ∣ d.size ∧ d.offset + d.size ≤ 4294967296 ∧
      d.size ≤ 65536 * d.sectorSize)
    ⟨fun h => ⟨h.1, h.2.1, h.2.2.1, h.2.2.2⟩, fun h => ⟨h.1, h.2, h.3, h.4⟩⟩

/-- The state after the body of one call of write: the sector is loaded
(state `st1`) and `ws` bytes are copied into the buffer. -/
def bodyState (d : Driver) (st1 : State) (rel : Nat) (src : Nat → Byte) (ws : Nat) : State :=
  { st1 with
    buffer := memcpy st1.buffer (rel % d.sectorSize) src ws
    log := st1.log ++
      [Event.bufferWrite (sectorOfRelativeAddress d rel) (rel % d.sectorSize) ws] }

/-- The erase-necessity test in the words of the specification: at some byte
position of the sector, (bufferByte XOR flashByte) AND bufferByte is not
zero. -/
def eraseNeededBySpec (d : Driver) (st : State) : Prop :=
  ∃ i, i < d.sectorSize ∧
    ((st.buffer i ^^^ sectorData d st.flash st.bufferSector i) &&& st.buffer i) ≠ 0

/-- The same test bit by bit: at some byte position some bit is 1 in the
buffer and 0 in the flash. -/
def someBitToSet (d : Driver) (st : State) : Prop :=
  ∃ i, i < d.sectorSize ∧ ∃ j,
    (st.buffer i).val.testBit j = true ∧
      (sectorData d st.flash st.bufferSector i).val.testBit j = false

/-- The page that starts at position `q` of the cached sector differs between
the buffer and the flash: the memcmp of the scan at that position. -/
def pageDiffers (d : Driver) (st : State) (q : Nat) : Bool :=
  memcmp (fun i => st.buffer (q + i))
    (fun i => sectorData d st.flash st.bufferSector (q + i)) d.pageSize

/-- The program call `e` includes the page that starts at position `q` of the
cached sector. -/
def coversPage (d : Driver) (st : State) (q : Nat) (e : Event) : Bool :=
  match e with
  | Event.program addr len =>
    decide (addr ≤ sectorBase d st.bufferSector + q ∧
      sectorBase d st.bufferSector + q + d.pageSize ≤ addr + len)
  | _ => false

/-- The properties of one program call of the scan, relative to the state
`st0` at the start of the loop: whole pages inside the sector, from position
`cp` on, every page of the call differing from the flash, and the call not
extendable at either end. -/
def MaximalRun (d : Driver) (st0 : State) (cp : Nat) (e : Event) : Prop :=
  ∃ pos len, e = Event.program (sectorBase d st0.bufferSector + pos) len ∧ cp ≤ pos ∧
    d.pageSize ∣ pos ∧ d.pageSize ∣ len ∧ 0 < len ∧ pos + len ≤ d.sectorSize ∧
    (∀ q, d.pageSize ∣ q → pos ≤ q → q < pos + len → pageDiffers d st0 q = true) ∧
    (pos = 0 ∨ pageDiffers d st0 (pos - d.pageSize) = false) ∧
    (pos + len = d.sectorSize ∨ pageDiffers d st0 (pos + len) = false)

/-! ## Lemmas -/

theorem memcmp_false_iff (a b : Nat → Byte) (n : Nat) :
    memcmp a b n = false ↔ ∀ i, i < n → a i = b i := by
  unfold memcmp
  rw [List.any_eq_false]
  constructor
  · intro h i hi
    have := h i (List.mem_range.mpr hi)
    simpa using this
  · intro h i hi
    simp [h i (List.mem_range.mp hi)]

theorem memcmp_true_iff (a b : Nat → Byte) (n : Nat) :
    memcmp a b n = true ↔ ∃ i, i < n ∧ a i ≠ b i := by
  unfold memcmp
  rw [List.any_eq_true]
  constructor
  · rintro ⟨i, hi, h⟩
    exact ⟨i, List.mem_range.mp hi, by simpa using h⟩
  · rintro ⟨i, hi, h⟩
    exact ⟨i, List.mem_range.mpr hi, by simpa using h⟩

theorem u32_of_lt {x : Nat} (h : x < 4294967296) : u32 x = x := Nat.mod_eq_of_lt h

theorem u16_of_lt {x : Nat} (h : x < 65536) : u16 x = x := Nat.mod_eq_of_lt h

theorem page_step {p s x : Nat} (hs : p ∣ s) (hx : p ∣ x) (h : x < s) : x + p ≤ s := by
  obtain ⟨a, rfl⟩ := hs
  obtain ⟨b, rfl⟩ := hx
  have hp : 0 < p := by
    rcases Nat.eq_zero_or_pos p with h0 | h0
    · subst h0; simp at h
    · exact h0
  have hba : b < a := lt_of_mul_lt_mul_left h (Nat.zero_le p)
  calc p * b + p = p * (b + 1) := by ring
    _ ≤ p * a := Nat.mul_le_mul_left p hba

theorem sectorData_eq (d : Driver) (fl : Nat → Byte) (s i : Nat) (hs : SectorOk d s) :
    sectorData d fl s i = fl (sectorBase d s + i) := by
  unfold sectorData sectorBase
  rw [u32_of_lt]
  have h1 := hs.2
  have h2 : (s + 1) * d.sectorSize = s * d.sectorSize + d.sectorSize := by ring
  rcases Nat.eq_zero_or_pos d.sectorSize with h0 | h0
  · rw [h0]; simp
  · omega

theorem scanChunk_spec (d : Driver) (hp : Platform d) (st : State) (cp : Nat)
    (hcp : d.pageSize ∣ cp) :
    ∀ fuel cs, d.pageSize ∣ cs → cp + cs < d.sectorSize → d.sectorSize < fuel + (cp + cs) →
      ∃ cs', scanChunk d st cp fuel cs = some cs' ∧ cs ≤ cs' ∧ d.pageSize ∣ cs' ∧
        cp + cs' ≤ d.sectorSize ∧
        (cp + cs' = d.sectorSize ∨
          (cp + cs' + d.pageSize ≤ d.sectorSize ∧
            ∀ i, i < d.pageSize →
              st.buffer (cp + cs' + i) =
                sectorData d st.flash st.bufferSector (cp + cs' + i))) := by
  intro fuel
  induction fuel with
  | zero => intro cs _ h1 h2; omega
  | succ fuel ih =>
    intro cs hcs hlt hfuel
    have hstep : cp + cs + d.pageSize ≤ d.sectorSize :=
      page_step hp.page_dvd (Nat.dvd_add hcp hcs) hlt
    have hS := hp.sector_lt
    have hP := hp.page_pos
    unfold scanChunk
    by_cases hm : memcmp (fun i => st.buffer (cp + cs + i))
        (fun i => sectorData d st.flash st.bufferSector (cp + cs + i)) d.pageSize = true
    · rw [if_pos hm]
      have e1 : u32 (cs + d.pageSize) = cs + d.pageSize := u32_of_lt (by omega)
      have e2 : u32 (cp + (cs + d.pageSize)) = cp + (cs + d.pageSize) := u32_of_lt (by omega)
      simp only [e1, e2]
      by_cases hend : cp + (cs + d.pageSize) = d.sectorSize
      · rw [if_pos hend]
        exact ⟨cs + d.pageSize, rfl, by omega, Nat.dvd_add hcs (dvd_refl _), by omega,
          Or.inl hend⟩
      · rw [if_neg hend]
        obtain ⟨cs', h1, h2, h3, h4, h5⟩ :=
          ih (cs + d.pageSize) (Nat.dvd_add hcs (dvd_refl _)) (by omega) (by omega)
        exact ⟨cs', h1, by omega, h3, h4, h5⟩
    · rw [if_neg hm]
      refine ⟨cs, rfl, le_refl _, hcs, by omega, Or.inr ⟨hstep, ?_⟩⟩
      have hm' := (memcmp_false_iff _ _ _).mp (by simpa using hm)
      exact hm'

theorem byte_and_self (b : Byte) : b &&& b = b := by
  apply Fin.ext
  show (b.val &&& b.val) % 256 = b.val
  rw [Nat.and_self]
  exact Nat.mod_eq_of_lt b.isLt

theorem byte_ff_and (b : Byte) : (0xFF : Byte) &&& b = b := by
  apply Fin.ext
  show (255 &&& b.val) % 256 = b.val
  have h : (255 : Nat) = 2 ^ 8 - 1 := by norm_num
  rw [Nat.and_comm, h, Nat.and_pow_two_sub_one_eq_mod, Nat.mod_mod]
  exact Nat.mod_eq_of_lt b.isLt

theorem nat_and_of_clear (b f : Nat) (hb : b < 256) (hf : f < 256)
    (h : b &&& (255 - f) = 0) : f &&& b = b := by
  apply Nat.eq_of_testBit_eq
  intro i
  have h1 := congrArg (fun x => Nat.testBit x i) h
  simp only [Nat.testBit_land, Nat.zero_testBit] at h1
  have h2 : (255 - f) = 2 ^ 8 - (f + 1) := by omega
  rw [h2, Nat.testBit_two_pow_sub_succ (by omega)] at h1
  rw [Nat.testBit_land]
  by_cases hi : i < 8
  · simp only [hi, decide_True, Bool.true_and] at h1
    revert h1
    cases f.testBit i <;> cases b.testBit i <;> simp
  · have hbi : b.testBit i = false := by
      apply Nat.testBit_lt_two_pow
      calc b < 256 := hb
        _ = 2 ^ 8 := by norm_num
        _ ≤ 2 ^ i := Nat.pow_le_pow_right (by norm_num) (by omega)
    simp [hbi]

theorem byte_and_of_clear (b f : Byte) (h : b.val &&& (255 - f.val) = 0) : f &&& b = b := by
  apply Fin.ext
  show (f.val &&& b.val) % 256 = b.val
  rw [nat_and_of_clear b.val f.val b.isLt f.isLt h]
  exact Nat.mod_eq_of_lt b.isLt

theorem programChunks_spec (d : Driver) (hp : Platform d) (buf : Nat → Byte) (s : Nat)
    (hs : SectorOk d s) :
    ∀ fuel (st : State) (cp : Nat), st.buffer = buf → st.bufferSector = s →
      d.pageSize ∣ cp → 1 ≤ fuel → d.sectorSize < fuel + cp →
      (∀ i, i < d.sectorSize → i < cp → st.flash (sectorBase d s + i) = buf i) →
      (∀ i, i < d.sectorSize → cp ≤ i → st.flash (sectorBase d s + i) &&& buf i = buf i) →
      ∃ st', programChunks d fuel st cp = some st' ∧ st'.buffer = buf ∧
        st'.bufferSector = s ∧ st'.allocated = st.allocated ∧
        (∀ i, i < d.sectorSize → st'.flash (sectorBase d s + i) = buf i) ∧
        (∀ a, ¬ (sectorBase d s ≤ a ∧ a < sectorBase d s + d.sectorSize) →
          st'.flash a = st.flash a) ∧
        ∃ evs, st'.log = st.log ++ evs ∧ OnlyPrograms evs := by
  intro fuel
  induction fuel with
  | zero => intro st cp _ _ _ h _ _ _; omega
  | succ fuel ih =>
    intro st cp hb hsec hcp _ hfuel hdone htodo
    have hS := hp.sector_lt
    have hP := hp.page_pos
    have hPS : d.pageSize ≤ d.sectorSize := Nat.le_of_dvd hp.sector_pos hp.page_dvd
    unfold programChunks
    by_cases hlt : cp < d.sectorSize
    · rw [if_pos hlt]
      obtain ⟨cs, hscan, -, hcsd, hcsle, hcsend⟩ :=
        scanChunk_spec d hp st cp hcp (d.sectorSize + 1) 0 (dvd_zero _) (by omega) (by omega)
      simp only [hscan]
      have hbase : u32 (d.offset + st.bufferSector * d.sectorSize + cp) = sectorBase d s + cp := by
        rw [hsec]
        unfold sectorBase
        apply u32_of_lt
        have h1 := hs.2
        have h2 : (s + 1) * d.sectorSize = s * d.sectorSize + d.sectorSize := by ring
        omega
      have hnext : u32 (cp + cs + d.pageSize) = cp + cs + d.pageSize := u32_of_lt (by omega)
      rw [hnext, hbase]
      -- the state after the program call of this round
      obtain ⟨st1, hst1, hb1, hsec1, hal1, hfl1, hlog1⟩ :
          ∃ st1 : State,
            (if cs > 0 then
              { st with
                flash := flash_range_program st.flash (sectorBase d s + cp)
                  (fun i => st.buffer (cp + i)) cs
                log := st.log ++ [Event.program (sectorBase d s + cp) cs] }
            else st) = st1 ∧ st1.buffer = buf ∧ st1.bufferSector = s ∧
            st1.allocated = st.allocated ∧
            (∀ a, st1.flash a = flash_range_program st.flash (sectorBase d s + cp)
                  (fun i => st.buffer (cp + i)) cs a) ∧
            ∃ evs, st1.log = st.log ++ evs ∧ OnlyPrograms evs := by
        by_cases hcs : cs > 0
        · rw [if_pos hcs]
          refine ⟨_, rfl, hb, hsec, rfl, fun a => rfl, [Event.program (sectorBase d s + cp) cs],
            rfl, ?_⟩
          intro e he
          simp only [List.mem_singleton] at he
          exact ⟨_, _, he⟩
        · rw [if_neg hcs]
          refine ⟨_, rfl, hb, hsec, rfl, ?_, [], by simp, ?_⟩
          · intro a
            unfold flash_range_program
            rw [if_neg (by omega)]
          · intro e he; simp at he
      rw [hst1]
      have hdone1 : ∀ i, i < d.sectorSize → i < cp + cs + d.pageSize →
          st1.flash (sectorBase d s + i) = buf i := by
        intro i hi hicp
        rw [hfl1]
        unfold flash_range_program
        by_cases hin : sectorBase d s + cp ≤ sectorBase d s + i ∧
            sectorBase d s + i < sectorBase d s + cp + cs
        · rw [if_pos hin]
          show st.flash _ &&& st.buffer (cp + (sectorBase d s + i - (sectorBase d s + cp))) = buf i
          have e : cp + (sectorBase d s + i - (sectorBase d s + cp)) = i := by omega
          rw [e, hb]
          exact htodo i hi (by omega)
        · rw [if_neg hin]
          by_cases hi2 : i < cp
          · exact hdone i hi hi2
          · rcases hcsend with hend | ⟨_, hsame⟩
            · omega
            · have h3 := hsame (i - (cp + cs)) (by omega)
              have e : cp + cs + (i - (cp + cs)) = i := by omega
              rw [e, sectorData_eq d st.flash st.bufferSector i (hsec ▸ hs), hb, hsec] at h3
              exact h3.symm
      have htodo1 : ∀ i, i < d.sectorSize → cp + cs + d.pageSize ≤ i →
          st1.flash (sectorBase d s + i) &&& buf i = buf i := by
        intro i hi hicp
        rw [hfl1]
        unfold flash_range_program
        rw [if_neg (by omega)]
        exact htodo i hi (by omega)
      obtain ⟨st', h1, h2, h3, h4, h5, h6, evs, h7, h8⟩ :=
        ih st1 (cp + cs + d.pageSize) hb1 hsec1
          (Nat.dvd_add (Nat.dvd_add hcp hcsd) (dvd_refl _)) (by omega) (by omega) hdone1 htodo1
      obtain ⟨evs1, hl1, ho1⟩ := hlog1
      refine ⟨st', h1, h2, h3, h4.trans hal1, h5, ?_, evs1 ++ evs, ?_, ?_⟩
      · intro a ha
        rw [h6 a ha, hfl1]
        unfold flash_range_program
        rw [if_neg (by omega)]
      · rw [h7, hl1, List.append_assoc]
      · intro e he
        rcases List.mem_append.mp he with h | h
        · exact ho1 e h
        · exact h8 e h
    · rw [if_neg hlt]
      refine ⟨st, rfl, hb, hsec, rfl, ?_, fun a _ => rfl, [], by simp, ?_⟩
      · intro i hi
        exact hdone i hi (by omega)
      · intro e he; simp at he

theorem needEraseSector_false (d : Driver) (st : State) (s : Nat) (hs : SectorOk d s)
    (h : needEraseSector d st s = false) :
    ∀ i, i < d.sectorSize → st.flash (sectorBase d s + i) = 0xFF := by
  intro i hi
  unfold needEraseSector at h
  rw [List.any_eq_false] at h
  have := h i (List.mem_range.mpr hi)
  rw [sectorData_eq d st.flash s i hs] at this
  simpa using this

theorem needEraseForBuffer_false (d : Driver) (st : State) (hs : SectorOk d st.bufferSector)
    (h : needEraseForBuffer d st = false) :
    ∀ i, i < d.sectorSize →
      st.flash (sectorBase d st.bufferSector + i) &&& st.buffer i = st.buffer i := by
  intro i hi
  unfold needEraseForBuffer at h
  rw [List.any_eq_false] at h
  have h1 := h i (List.mem_range.mpr hi)
  rw [sectorData_eq d st.flash st.bufferSector i hs] at h1
  simp only [Bool.and_eq_true, bne_iff_ne, ne_eq, not_and, not_not] at h1
  by_cases he : st.buffer i = st.flash (sectorBase d st.bufferSector + i)
  · rw [← he]; exact byte_and_self _
  · exact byte_and_of_clear _ _ (h1 he)

theorem needWriteSector_false (d : Driver) (st : State) (hs : SectorOk d st.bufferSector)
    (h : needWriteSector d st = false) :
    ∀ i, i < d.sectorSize → st.flash (sectorBase d st.bufferSector + i) = st.buffer i := by
  intro i hi
  unfold needWriteSector at h
  have := (memcmp_false_iff _ _ _).mp h i hi
  rw [sectorData_eq d st.flash st.bufferSector i hs] at this
  exact this.symm

theorem u32_sectorBase (d : Driver) (s : Nat) (hs : SectorOk d s) (hp : Platform d) :
    u32 (d.offset + s * d.sectorSize) = sectorBase d s := by
  unfold sectorBase
  apply u32_of_lt
  have h1 := hs.2
  have h2 : (s + 1) * d.sectorSize = s * d.sectorSize + d.sectorSize := by ring
  have := hp.sector_pos
  omega

theorem writeSector_spec (d : Driver) (hp : Platform d) (st : State)
    (hs : SectorOk d st.bufferSector) :
    ∃ st', writeSector d st = some st' ∧ st'.buffer = st.buffer ∧
      st'.bufferSector = st.bufferSector ∧ st'.allocated = st.allocated ∧
      (∀ i, i < d.sectorSize → st'.flash (sectorBase d st.bufferSector + i) = st.buffer i) ∧
      (∀ a, ¬ (sectorBase d st.bufferSector ≤ a ∧
          a < sectorBase d st.bufferSector + d.sectorSize) → st'.flash a = st.flash a) ∧
      ∃ evs, st'.log = st.log ++ evs ∧ CommitEvents d st evs := by
  unfold writeSector
  by_cases hw : needWriteSector d st = true
  · simp only [hw, Bool.not_true, Bool.false_eq_true, if_false]
    -- the state after the erase step
    obtain ⟨st1, hst1, hb1, hsec1, hal1, hout1, hprog1, evs1, hlog1, hev1⟩ :
        ∃ st1 : State,
          (if needEraseForBuffer d st = true then eraseSector d st st.bufferSector else st) = st1 ∧
          st1.buffer = st.buffer ∧ st1.bufferSector = st.bufferSector ∧
          st1.allocated = st.allocated ∧
          (∀ a, ¬ (sectorBase d st.bufferSector ≤ a ∧
            a < sectorBase d st.bufferSector + d.sectorSize) → st1.flash a = st.flash a) ∧
          (∀ i, i < d.sectorSize →
            st1.flash (sectorBase d st.bufferSector + i) &&& st.buffer i = st.buffer i) ∧
          ∃ evs, st1.log = st.log ++ evs ∧ CommitEvents d st evs := by
      by_cases he : needEraseForBuffer d st = true
      · rw [if_pos he]
        unfold eraseSector
        by_cases hn : needEraseSector d st st.bufferSector = true
        · simp only [hn, Bool.not_true, Bool.false_eq_true, if_false]
          rw [u32_sectorBase d _ hs hp]
          refine ⟨_, rfl, rfl, rfl, rfl, ?_, ?_, [Event.erase (sectorBase d st.bufferSector)
            d.sectorSize], rfl, ?_⟩
          · intro a ha
            show flash_range_erase st.flash _ _ a = st.flash a
            unfold flash_range_erase
            rw [if_neg ha]
          · intro i hi
            show flash_range_erase st.flash _ _ _ &&& st.buffer i = st.buffer i
            unfold flash_range_erase
            rw [if_pos (by omega)]
            exact byte_ff_and _
          · intro e hmem
            simp only [List.mem_singleton] at hmem
            exact Or.inr ⟨by rw [u32_sectorBase d _ hs hp]; exact hmem, he, hn⟩
        · have hn' : needEraseSector d st st.bufferSector = false := by simpa using hn
          simp only [hn', Bool.not_false, if_true]
          refine ⟨_, rfl, rfl, rfl, rfl, fun a _ => rfl, ?_, [], by simp, ?_⟩
          · intro i hi
            rw [needEraseSector_false d st _ hs hn' i hi]
            exact byte_ff_and _
          · intro e hmem; simp at hmem
      · rw [if_neg he]
        have he' : needEraseForBuffer d st = false := by simpa using he
        refine ⟨_, rfl, rfl, rfl, rfl, fun a _ => rfl, ?_, [], by simp, ?_⟩
        · exact needEraseForBuffer_false d st hs he'
        · intro e hmem; simp at hmem
    rw [hst1]
    obtain ⟨st', h1, h2, h3, h4, h5, h6, evs, h7, h8⟩ :=
      programChunks_spec d hp st.buffer st.bufferSector hs (d.sectorSize + 1) st1 0 hb1 hsec1
        (dvd_zero _) (by omega) (by omega) (fun i _ h => by omega)
        (fun i hi _ => hprog1 i hi)
    refine ⟨st', h1, h2, h3, h4.trans hal1, h5, ?_, evs1 ++ evs, ?_, ?_⟩
    · intro a ha
      rw [h6 a ha, hout1 a ha]
    · rw [h7, hlog1, List.append_assoc]
    · intro e hmem
      rcases List.mem_append.mp hmem with h | h
      · exact hev1 e h
      · exact Or.inl (h8 e h)
  · have hw' : needWriteSector d st = false := by simpa using hw
    simp only [hw', Bool.not_false, if_true]
    refine ⟨st, rfl, rfl, rfl, rfl, needWriteSector_false d st hs hw', fun a _ => rfl, [],
      by simp, ?_⟩
    intro e hmem; simp at hmem

theorem physicalOnly_of_commitEvents (d : Driver) (st : State) (evs : List Event)
    (h : CommitEvents d st evs) : PhysicalOnly evs := by
  intro e he
  rcases h e he with h1 | ⟨h1, -, -⟩
  · exact Or.inl h1
  · exact Or.inr ⟨_, _, h1⟩

theorem commit_spec (d : Driver) (hp : Platform d) (st : State) (hwf : WF d st) :
    ∃ st', commit d st = some st' ∧ st'.buffer = st.buffer ∧
      st'.bufferSector = st.bufferSector ∧ st'.allocated = st.allocated ∧
      (∀ a, st'.flash a = view d st a) ∧
      ∃ evs, st'.log = st.log ++ evs ∧ CommitEvents d st evs := by
  unfold commit
  by_cases hal : st.allocated = true
  · simp only [hal, Bool.not_true, Bool.false_eq_true, if_false]
    obtain ⟨st', h1, h2, h3, h4, h5, h6, h7⟩ := writeSector_spec d hp st (hwf hal)
    refine ⟨st', h1, h2, h3, h4.trans hal, ?_, h7⟩
    intro a
    unfold view
    by_cases hin : sectorBase d st.bufferSector ≤ a ∧
        a < sectorBase d st.bufferSector + d.sectorSize
    · rw [if_pos ⟨hal, hin⟩]
      have := h5 (a - sectorBase d st.bufferSector) (by omega)
      rw [← this]
      congr 1
      omega
    · rw [if_neg (fun h => hin h.2)]
      exact h6 a hin
  · have hal' : st.allocated = false := by simpa using hal
    simp only [hal', Bool.not_false, if_true]
    refine ⟨st, rfl, rfl, rfl, hal', ?_, [], by simp, ?_⟩
    · intro a
      unfold view
      rw [if_neg (fun h => hal h.1)]
    · intro e he; simp at he

theorem view_of_flash_eq (d : Driver) (st st' : State) (hb : st'.buffer = st.buffer)
    (hs : st'.bufferSector = st.bufferSector) (ha : st'.allocated = st.allocated)
    (hf : ∀ a, st'.flash a = view d st a) : ∀ a, view d st' a = view d st a := by
  intro a
  unfold view
  rw [hb, hs, ha]
  by_cases hin : st.allocated = true ∧ sectorBase d st.bufferSector ≤ a ∧
      a < sectorBase d st.bufferSector + d.sectorSize
  · rw [if_pos hin, if_pos hin]
  · rw [if_neg hin, if_neg hin, hf a]
    unfold view
    rw [if_neg hin]

theorem loadSector_same (d : Driver) (st : State) (hal : st.allocated = true) :
    loadSector d st st.bufferSector false = some st := by
  unfold loadSector
  simp [hal]

theorem loadSector_spec (d : Driver) (hp : Platform d) (st : State) (hwf : WF d st) (s : Nat)
    (hs : SectorOk d s) :
    ∃ st', loadSector d st s false = some st' ∧ st'.allocated = true ∧
      st'.bufferSector = s ∧ (∀ a, view d st' a = view d st a) ∧
      ∃ evs, st'.log = st.log ++ evs ∧ PhysicalOnly evs := by
  by_cases hsame : st.allocated = true ∧ s = st.bufferSector
  · obtain ⟨hal, rfl⟩ := hsame
    refine ⟨st, loadSector_same d st hal, hal, rfl, fun a => rfl, [], by simp, ?_⟩
    intro e he; simp at he
  · obtain ⟨st1, hc, hb1, hs1, hal1, hfl1, evs, hlog1, hev1⟩ :
        ∃ st1 : State,
          (if (st.allocated && s != st.bufferSector) = true then commit d st else some st) =
            some st1 ∧ st1.buffer = st.buffer ∧ st1.bufferSector = st.bufferSector ∧
          st1.allocated = st.allocated ∧ (∀ a, st1.flash a = view d st a) ∧
          ∃ evs, st1.log = st.log ++ evs ∧ PhysicalOnly evs := by
      by_cases hal : st.allocated = true
      · have hne : s ≠ st.bufferSector := fun h => hsame ⟨hal, h⟩
        have hc : (st.allocated && s != st.bufferSector) = true := by simp [hal, hne]
        rw [if_pos hc]
        obtain ⟨st1, h1, h2, h3, h4, h5, evs, h6, h7⟩ := commit_spec d hp st hwf
        exact ⟨st1, h1, h2, h3, h4, h5, evs, h6, physicalOnly_of_commitEvents d st evs h7⟩
      · have hal' : st.allocated = false := by simpa using hal
        have hc : ¬ (st.allocated && s != st.bufferSector) = true := by simp [hal']
        rw [if_neg hc]
        refine ⟨st, rfl, rfl, rfl, rfl, ?_, [], by simp, ?_⟩
        · intro a
          unfold view
          rw [if_neg (fun h => hal h.1)]
        · intro e he; simp at he
    have hcond : ¬ (!false && st.allocated && s == st.bufferSector) = true := by
      intro h
      simp only [Bool.not_false, Bool.true_and, Bool.and_eq_true, beq_iff_eq] at h
      exact hsame h
    unfold loadSector
    rw [if_neg hcond]
    simp only [hc]
    refine ⟨_, rfl, rfl, rfl, ?_, evs, hlog1, hev1⟩
    intro a
    have hv1 : view d st a = st1.flash a := (hfl1 a).symm
    rw [hv1]
    show (if _ then _ else _) = _
    simp only
    by_cases hin : sectorBase d s ≤ a ∧ a < sectorBase d s + d.sectorSize
    · rw [if_pos ⟨trivial, hin⟩]
      unfold memcpy
      rw [if_pos (by omega), sectorData_eq d st1.flash s _ hs]
      congr 1
      omega
    · rw [if_neg (fun h => hin h.2)]

theorem writeFuel_eq_writeBytesFuel (d : Driver) :
    ∀ fuel st rel value size,
      writeFuel d fuel st rel value size = writeBytesFuel d fuel st rel (fun _ => value) size := by
  intro fuel
  induction fuel with
  | zero => intro st rel value size; rfl
  | succ fuel ih =>
    intro st rel value size
    unfold writeFuel writeBytesFuel
    by_cases h0 : size ≤ 0
    · rw [if_pos h0, if_pos h0]
    · rw [if_neg h0, if_neg h0]
      dsimp only
      cases loadSector d st (sectorOfRelativeAddress d rel) false with
      | none => rfl
      | some st1 =>
        dsimp only
        split
        · rw [ih]; rfl
        · rfl

theorem size_aligned_of_validate (d : Driver) (h : validateParameters d = Except.ok ()) :
    d.sectorSize ∣ d.size := by
  unfold validateParameters at h
  by_cases h1 : d.size % d.sectorSize ≠ 0
  · rw [if_pos h1] at h; cases h
  · exact Nat.dvd_of_mod_eq_zero (by simpa using h1)

theorem sector_of_rel (d : Driver) (hv : Valid d) (rel : Nat) (h : rel < d.size) :
    sectorOfRelativeAddress d rel = rel / d.sectorSize ∧ SectorOk d (rel / d.sectorSize) ∧
      sectorBase d (rel / d.sectorSize) + rel % d.sectorSize = d.offset + rel := by
  have hS := hv.platform.sector_pos
  obtain ⟨q, hq⟩ := hv.aligned
  have h1 : rel / d.sectorSize < q := by
    apply Nat.div_lt_of_lt_mul
    rw [← hq]; exact h
  have h2 : (rel / d.sectorSize + 1) * d.sectorSize ≤ d.size := by
    rw [hq, Nat.mul_comm]
    exact Nat.mul_le_mul_left _ h1
  have h3 : rel / d.sectorSize < 65536 := by
    apply Nat.div_lt_of_lt_mul
    have := hv.sectors
    rw [Nat.mul_comm]
    omega
  refine ⟨u16_of_lt h3, ⟨h3, ?_⟩, ?_⟩
  · have := hv.fits
    omega
  · unfold sectorBase
    have := Nat.div_add_mod rel d.sectorSize
    rw [Nat.mul_comm] at this
    omega

theorem view_memcpy (d : Driver) (st : State) (hal : st.allocated = true) (p n : Nat)
    (src : Nat → Byte) (hpn : p + n ≤ d.sectorSize) (log : List Event) (a : Nat) :
    view d { st with buffer := memcpy st.buffer p src n, log := log } a =
      if sectorBase d st.bufferSector + p ≤ a ∧ a < sectorBase d st.bufferSector + p + n then
        src (a - (sectorBase d st.bufferSector + p))
      else view d st a := by
  unfold view memcpy
  simp only [hal, true_and]
  by_cases hin : sectorBase d st.bufferSector ≤ a ∧
      a < sectorBase d st.bufferSector + d.sectorSize
  · rw [if_pos hin, if_pos hin]
    by_cases hseg : sectorBase d st.bufferSector + p ≤ a ∧
        a < sectorBase d st.bufferSector + p + n
    · rw [if_pos hseg, if_pos (by omega)]
      congr 1
      omega
    · rw [if_neg hseg, if_neg (by omega)]
  · rw [if_neg hin, if_neg hin, if_neg (by omega)]

theorem programChunks_total (d : Driver) (hp : Platform d) :
    ∀ fuel (st : State) (cp : Nat), d.pageSize ∣ cp → 1 ≤ fuel → d.sectorSize < fuel + cp →
      ∃ st', programChunks d fuel st cp = some st' ∧ st'.buffer = st.buffer ∧
        st'.bufferSector = st.bufferSector ∧ st'.allocated = st.allocated ∧
        ∃ evs, st'.log = st.log ++ evs ∧ OnlyPrograms evs := by
  intro fuel
  induction fuel with
  | zero => intro st cp _ h _; omega
  | succ fuel ih =>
    intro st cp hcp _ hfuel
    have hS := hp.sector_lt
    have hP := hp.page_pos
    have hPS : d.pageSize ≤ d.sectorSize := Nat.le_of_dvd hp.sector_pos hp.page_dvd
    unfold programChunks
    by_cases hlt : cp < d.sectorSize
    · rw [if_pos hlt]
      obtain ⟨cs, hscan, -, hcsd, hcsle, -⟩ :=
        scanChunk_spec d hp st cp hcp (d.sectorSize + 1) 0 (dvd_zero _) (by omega) (by omega)
      simp only [hscan]
      have hnext : u32 (cp + cs + d.pageSize) = cp + cs + d.pageSize := u32_of_lt (by omega)
      rw [hnext]
      by_cases hcs : cs > 0
      · rw [if_pos hcs]
        obtain ⟨st', h1, h2, h3, h4, evs, h5, h6⟩ :=
          ih _ (cp + cs + d.pageSize) (Nat.dvd_add (Nat.dvd_add hcp hcsd) (dvd_refl _))
            (by omega) (by omega)
        refine ⟨st', h1, h2, h3, h4,
          Event.program (u32 (d.offset + st.bufferSector * d.sectorSize + cp)) cs :: evs, ?_, ?_⟩
        · rw [h5]
          simp
        · intro e he
          rcases List.mem_cons.mp he with h | h
          · exact ⟨_, _, h⟩
          · exact h6 e h
      · rw [if_neg hcs]
        exact ih st (cp + cs + d.pageSize) (Nat.dvd_add (Nat.dvd_add hcp hcsd) (dvd_refl _))
          (by omega) (by omega)
    · rw [if_neg hlt]
      exact ⟨st, rfl, rfl, rfl, rfl, [], by simp, fun e he => by simp at he⟩

theorem writeSector_total (d : Driver) (hp : Platform d) (st : State) :
    ∃ st', writeSector d st = some st' ∧ st'.buffer = st.buffer ∧
      st'.bufferSector = st.bufferSector ∧ st'.allocated = st.allocated ∧
      ∃ evs, st'.log = st.log ++ evs ∧ CommitEvents d st evs := by
  unfold writeSector
  by_cases hw : needWriteSector d st = true
  · simp only [hw, Bool.not_true, Bool.false_eq_true, if_false]
    obtain ⟨st1, hst1, hb1, hsec1, hal1, evs1, hlog1, hev1⟩ :
        ∃ st1 : State,
          (if needEraseForBuffer d st = true then eraseSector d st st.bufferSector else st) = st1 ∧
          st1.buffer = st.buffer ∧ st1.bufferSector = st.bufferSector ∧
          st1.allocated = st.allocated ∧ ∃ evs, st1.log = st.log ++ evs ∧ CommitEvents d st evs := by
      by_cases he : needEraseForBuffer d st = true
      · rw [if_pos he]
        unfold eraseSector
        by_cases hn : needEraseSector d st st.bufferSector = true
        · simp only [hn, Bool.not_true, Bool.false_eq_true, if_false]
          refine ⟨_, rfl, rfl, rfl, rfl, [_], rfl, ?_⟩
          intro e hmem
          simp only [List.mem_singleton] at hmem
          exact Or.inr ⟨hmem, he, hn⟩
        · have hn' : needEraseSector d st st.bufferSector = false := by simpa using hn
          simp only [hn', Bool.not_false, if_true]
          exact ⟨_, rfl, rfl, rfl, rfl, [], by simp, fun e hmem => by simp at hmem⟩
      · rw [if_neg he]
        exact ⟨_, rfl, rfl, rfl, rfl, [], by simp, fun e hmem => by simp at hmem⟩
    rw [hst1]
    obtain ⟨st', h1, h2, h3, h4, evs, h5, h6⟩ :=
      programChunks_total d hp (d.sectorSize + 1) st1 0 (dvd_zero _) (by omega) (by omega)
    refine ⟨st', h1, h2.trans hb1, h3.trans hsec1, h4.trans hal1, evs1 ++ evs, ?_, ?_⟩
    · rw [h5, hlog1, List.append_assoc]
    · intro e hmem
      rcases List.mem_append.mp hmem with h | h
      · exact hev1 e h
      · exact Or.inl (h6 e h)
  · have hw' : needWriteSector d st = false := by simpa using hw
    simp only [hw', Bool.not_false, if_true]
    exact ⟨st, rfl, rfl, rfl, rfl, [], by simp, fun e hmem => by simp at hmem⟩

theorem commit_total (d : Driver) (hp : Platform d) (st : State) :
    ∃ st', commit d st = some st' ∧ st'.buffer = st.buffer ∧
      st'.bufferSector = st.bufferSector ∧ st'.allocated = st.allocated ∧
      ∃ evs, st'.log = st.log ++ evs ∧ CommitEvents d st evs := by
  unfold commit
  by_cases hal : st.allocated = true
  · simp only [hal, Bool.not_true, Bool.false_eq_true, if_false]
    obtain ⟨st', h1, h2, h3, h4, h5⟩ := writeSector_total d hp st
    exact ⟨st', h1, h2, h3, h4.trans hal, h5⟩
  · have hal' : st.allocated = false := by simpa using hal
    simp only [hal', Bool.not_false, if_true]
    exact ⟨st, rfl, rfl, rfl, hal', [], by simp, fun e hmem => by simp at hmem⟩

theorem loadSector_total (d : Driver) (hp : Platform d) (st : State) (s : Nat) (force : Bool) :
    ∃ st', loadSector d st s force = some st' ∧ st'.allocated = true ∧
      st'.bufferSector = s ∧ ∃ evs, st'.log = st.log ++ evs ∧ PhysicalOnly evs := by
  unfold loadSector
  by_cases hskip : (!force && st.allocated && s == st.bufferSector) = true
  · rw [if_pos hskip]
    simp only [Bool.and_eq_true, beq_iff_eq] at hskip
    exact ⟨st, rfl, hskip.1.2, hskip.2.symm, [], by simp, fun e hmem => by simp at hmem⟩
  · rw [if_neg hskip]
    by_cases hc : (st.allocated && s != st.bufferSector) = true
    · rw [if_pos hc]
      obtain ⟨st1, h1, -, -, -, evs, h5, h6⟩ := commit_total d hp st
      simp only [h1]
      exact ⟨_, rfl, rfl, rfl, evs, h5, physicalOnly_of_commitEvents d st evs h6⟩
    · rw [if_neg hc]
      exact ⟨_, rfl, rfl, rfl, [], by simp, fun e hmem => by simp at hmem⟩

theorem write_locals (d : Driver) (hp : Platform d) (rel : Nat) :
    u16 (rel % d.sectorSize) = rel % d.sectorSize ∧
      u16 (d.sectorSize - rel % d.sectorSize) = d.sectorSize - rel % d.sectorSize ∧
      0 < d.sectorSize - rel % d.sectorSize ∧
      d.sectorSize - rel % d.sectorSize < 65536 := by
  have hS := hp.sector_lt
  have hmod := Nat.mod_lt rel hp.sector_pos
  exact ⟨u16_of_lt (by omega), u16_of_lt (by omega), by omega, by omega⟩

theorem writeBytesFuel_last (d : Driver) (hp : Platform d) (fuel : Nat) (st st1 : State)
    (rel : Nat) (src : Nat → Byte) (size : Nat) (hpos : 0 < size)
    (hfit : size ≤ d.sectorSize - rel % d.sectorSize)
    (hload : loadSector d st (sectorOfRelativeAddress d rel) false = some st1) :
    writeBytesFuel d (fuel + 1) st rel src size =
      some (u32 (rel + size), bodyState d st1 rel src size) := by
  obtain ⟨e1, e2, -, h4⟩ := write_locals d hp rel
  have hnb : ¬ d.sectorSize - rel % d.sectorSize < size := by omega
  conv_lhs => unfold writeBytesFuel
  rw [if_neg (by omega)]
  simp only [hload, e1, e2, if_neg hnb, u16_of_lt (show size < 65536 by omega)]
  rfl

theorem writeBytesFuel_cut (d : Driver) (hp : Platform d) (fuel : Nat) (st st1 : State)
    (rel : Nat) (src : Nat → Byte) (size : Nat)
    (hbig : d.sectorSize - rel % d.sectorSize < size)
    (hcut : u16 (size - (d.sectorSize - rel % d.sectorSize)) = 0)
    (hload : loadSector d st (sectorOfRelativeAddress d rel) false = some st1) :
    writeBytesFuel d (fuel + 1) st rel src size =
      some (u32 (rel + size), bodyState d st1 rel src (d.sectorSize - rel % d.sectorSize)) := by
  obtain ⟨e1, e2, -, h4⟩ := write_locals d hp rel
  conv_lhs => unfold writeBytesFuel
  rw [if_neg (by omega)]
  simp only [hload, e1, e2, if_pos hbig, hcut]
  rfl

theorem writeBytesFuel_more (d : Driver) (hp : Platform d) (fuel : Nat) (st st1 : State)
    (rel : Nat) (src : Nat → Byte) (size : Nat)
    (hbig : d.sectorSize - rel % d.sectorSize < size)
    (hmore : 0 < u16 (size - (d.sectorSize - rel % d.sectorSize)))
    (hload : loadSector d st (sectorOfRelativeAddress d rel) false = some st1) :
    writeBytesFuel d (fuel + 1) st rel src size =
      writeBytesFuel d fuel (bodyState d st1 rel src (d.sectorSize - rel % d.sectorSize))
        (u32 (rel + (d.sectorSize - rel % d.sectorSize)))
        (fun i => src (d.sectorSize - rel % d.sectorSize + i))
        (u16 (size - (d.sectorSize - rel % d.sectorSize))) := by
  obtain ⟨e1, e2, -, h4⟩ := write_locals d hp rel
  conv_lhs => unfold writeBytesFuel
  rw [if_neg (by omega)]
  simp only [hload, e1, e2, if_pos hbig]
  rw [if_pos (by omega)]
  rfl

theorem body_spec (d : Driver) (hv : Valid d) (st : State) (hwf : WF d st) (rel : Nat)
    (src : Nat → Byte) (ws : Nat) (hrel : rel < d.size)
    (hws : ws ≤ d.sectorSize - rel % d.sectorSize) :
    ∃ st1, loadSector d st (sectorOfRelativeAddress d rel) false = some st1 ∧
      WF d (bodyState d st1 rel src ws) ∧
      (bodyState d st1 rel src ws).allocated = true ∧
      (bodyState d st1 rel src ws).bufferSector = rel / d.sectorSize ∧
      ∀ a, view d (bodyState d st1 rel src ws) a =
        if d.offset + rel ≤ a ∧ a < d.offset + rel + ws then src (a - (d.offset + rel))
        else view d st a := by
  obtain ⟨hsec, hok, hbase⟩ := sector_of_rel d hv rel hrel
  obtain ⟨st1, hload, hal, hbs, hview, -⟩ :=
    loadSector_spec d hv.platform st hwf (rel / d.sectorSize) hok
  have hmod := Nat.mod_lt rel hv.platform.sector_pos
  refine ⟨st1, by rw [hsec]; exact hload, ?_, hal, hbs, ?_⟩
  · intro _
    show SectorOk d st1.bufferSector
    rw [hbs]; exact hok
  · intro a
    unfold bodyState
    rw [view_memcpy d st1 hal _ _ _ (by omega), hbs, hbase, hview]

theorem writeBytesFuel_effect (d : Driver) (hv : Valid d) :
    ∀ fuel rel (src : Nat → Byte) size, size < fuel → rel + size ≤ d.size →
      ∃ (r : Nat) (mask : Nat → Option Byte),
        (∀ a, ¬ (d.offset + rel ≤ a ∧ a < d.offset + rel + size) → mask a = none) ∧
        (size < 65536 → r = rel + size ∧
          ∀ a, d.offset + rel ≤ a → a < d.offset + rel + size →
            mask a = some (src (a - (d.offset + rel)))) ∧
        ∀ st, WF d st →
          ∃ st', writeBytesFuel d fuel st rel src size = some (r, st') ∧ WF d st' ∧
            ∀ a, view d st' a = (mask a).getD (view d st a) := by
  intro fuel
  induction fuel with
  | zero => intro rel src size h; omega
  | succ fuel ih =>
    intro rel src size hfuel hin
    have hp := hv.platform
    have hfits := hv.fits
    have hsectors := hv.sectors
    have hS := hp.sector_lt
    obtain ⟨-, -, hwpos, hwlt⟩ := write_locals d hp rel
    by_cases h0 : size = 0
    · subst h0
      refine ⟨rel, fun _ => none, fun _ _ => rfl, fun _ => ⟨rfl, fun a h1 h2 => by omega⟩, ?_⟩
      intro st hwf
      refine ⟨st, ?_, hwf, fun a => rfl⟩
      unfold writeBytesFuel
      simp
    · have hpos : 0 < size := Nat.pos_of_ne_zero h0
      by_cases hbig : d.sectorSize - rel % d.sectorSize < size
      · by_cases hcut : u16 (size - (d.sectorSize - rel % d.sectorSize)) = 0
        · -- the overhead is lost in the uint16_t
          refine ⟨u32 (rel + size),
            fun a => if d.offset + rel ≤ a ∧
              a < d.offset + rel + (d.sectorSize - rel % d.sectorSize) then
                some (src (a - (d.offset + rel))) else none, ?_, ?_, ?_⟩
          · intro a ha
            dsimp only
            rw [if_neg (by omega)]
          · intro hsmall
            have : u16 (size - (d.sectorSize - rel % d.sectorSize)) =
                size - (d.sectorSize - rel % d.sectorSize) := u16_of_lt (by omega)
            omega
          · intro st hwf
            obtain ⟨st1, hload, hwf2, -, -, hview⟩ :=
              body_spec d hv st hwf rel src (d.sectorSize - rel % d.sectorSize) (by omega)
                (le_refl _)
            refine ⟨_, writeBytesFuel_cut d hp fuel st st1 rel src size hbig hcut hload, hwf2, ?_⟩
            intro a
            rw [hview]
            dsimp only
            split <;> rfl
        · -- the write goes on in the next sector
          have hmore : 0 < u16 (size - (d.sectorSize - rel % d.sectorSize)) :=
            Nat.pos_of_ne_zero hcut
          have hle : u16 (size - (d.sectorSize - rel % d.sectorSize)) ≤
              size - (d.sectorSize - rel % d.sectorSize) := Nat.mod_le _ _
          have hrel' : u32 (rel + (d.sectorSize - rel % d.sectorSize)) =
              rel + (d.sectorSize - rel % d.sectorSize) := u32_of_lt (by omega)
          obtain ⟨r, mask, hsupp, hexact, hrun⟩ :=
            ih (rel + (d.sectorSize - rel % d.sectorSize))
              (fun i => src (d.sectorSize - rel % d.sectorSize + i))
              (u16 (size - (d.sectorSize - rel % d.sectorSize))) (by omega) (by omega)
          refine ⟨r,
            fun a => match mask a with
              | some b => some b
              | none => if d.offset + rel ≤ a ∧
                  a < d.offset + rel + (d.sectorSize - rel % d.sectorSize) then
                    some (src (a - (d.offset + rel))) else none, ?_, ?_, ?_⟩
          · intro a ha
            show (match mask a with | some b => some b | none => _) = none
            rw [hsupp a (by omega)]
            show (if _ then _ else _) = none
            rw [if_neg (by omega)]
          · intro hsmall
            have hu : u16 (size - (d.sectorSize - rel % d.sectorSize)) =
                size - (d.sectorSize - rel % d.sectorSize) := u16_of_lt (by omega)
            obtain ⟨hr, hm⟩ := hexact (by omega)
            refine ⟨by omega, ?_⟩
            intro a ha1 ha2
            show (match mask a with | some b => some b | none => _) = _
            by_cases hfirst : a < d.offset + rel + (d.sectorSize - rel % d.sectorSize)
            · rw [hsupp a (by omega)]
              show (if _ then _ else _) = _
              rw [if_pos ⟨ha1, hfirst⟩]
            · rw [hm a (by omega) (by omega)]
              show some (src _) = some (src _)
              congr 2
              omega
          · intro st hwf
            obtain ⟨st1, hload, hwf2, -, -, hview⟩ :=
              body_spec d hv st hwf rel src (d.sectorSize - rel % d.sectorSize) (by omega)
                (le_refl _)
            obtain ⟨st', hw, hwf', hview'⟩ := hrun _ hwf2
            refine ⟨st', ?_, hwf', ?_⟩
            · rw [writeBytesFuel_more d hp fuel st st1 rel src size hbig hmore hload, hrel']
              exact hw
            · intro a
              rw [hview' a, hview a]
              show _ = (match mask a with | some b => some b | none => _).getD _
              cases hma : mask a with
              | some b => rfl
              | none =>
                show _ = Option.getD (if _ then _ else _) _
                split <;> rfl
      · -- the whole write fits the sector
        have hr : u32 (rel + size) = rel + size := u32_of_lt (by omega)
        refine ⟨rel + size,
          fun a => if d.offset + rel ≤ a ∧ a < d.offset + rel + size then
            some (src (a - (d.offset + rel))) else none, ?_, ?_, ?_⟩
        · intro a ha
          dsimp only
          rw [if_neg ha]
        · intro _
          refine ⟨rfl, fun a h1 h2 => ?_⟩
          dsimp only
          rw [if_pos ⟨h1, h2⟩]
        · intro st hwf
          obtain ⟨st1, hload, hwf2, -, -, hview⟩ :=
            body_spec d hv st hwf rel src size (by omega) (by omega)
          refine ⟨_, ?_, hwf2, ?_⟩
          · rw [writeBytesFuel_last d hp fuel st st1 rel src size hpos (by omega) hload, hr]
          · intro a
            rw [hview]
            dsimp only
            split <;> rfl

/-- C3 (the code departs from the claim): a region of one sector that starts at
the end of the free flash ends behind it, `offset + size > endFree`, yet
validateParameters accepts it, because the source compares `size` alone with
`endFree`. -/
theorem validateParameters_accepts_end_behind_free :
    validateParameters misplaced = Except.ok () ∧
      misplaced.offset + misplaced.size > misplaced.endFree ∧
      misplaced.size % misplaced.sectorSize = 0 ∧ misplaced.offset % misplaced.sectorSize = 0 ∧
      misplaced.startFree ≤ misplaced.offset :=
  ⟨rfl, by decide, by decide, by decide, by decide⟩

theorem validateParameters_ok_iff (d : Driver) :
    validateParameters d = Except.ok () ↔
      d.size % d.sectorSize = 0 ∧ d.offset % d.sectorSize = 0 ∧ d.size ≤ d.endFree ∧
        d.startFree ≤ d.offset := by
  unfold validateParameters
  constructor
  · intro h
    split_ifs at h with h1 h2 h3 h4
    exact ⟨by simpa using h1, by simpa using h2, by omega, by omega⟩
  · rintro ⟨h1, h2, h3, h4⟩
    rw [if_neg (by simp [h1]), if_neg (by simp [h2]), if_neg (by omega), if_neg (by omega)]

theorem needWriteSector_of_same (d : Driver) (st : State)
    (h : ∀ i, i < d.sectorSize → st.buffer i = sectorData d st.flash st.bufferSector i) :
    needWriteSector d st = false := by
  unfold needWriteSector
  exact (memcmp_false_iff _ _ _).mpr h

theorem commit_of_same (d : Driver) (st : State)
    (h : ∀ i, i < d.sectorSize → st.buffer i = sectorData d st.flash st.bufferSector i) :
    commit d st = some st := by
  unfold commit writeSector
  rw [needWriteSector_of_same d st h]
  simp

/-- C7: when the buffer is byte for byte the physical contents of the cached
sector, commit returns the very state it was given: the flash, the driver and
the log of erase and program calls are unchanged. -/
theorem commit_clean_is_noop (d : Driver) (st : State)
    (h : ∀ i, i < d.sectorSize → st.buffer i = sectorData d st.flash st.bufferSector i) :
    commit d st = some st :=
  commit_of_same d st h

theorem commit_clean_is_noop_witness :
    (∀ i, i < tiny.sectorSize →
        cleanState.buffer i = sectorData tiny cleanState.flash cleanState.bufferSector i) ∧
      commit tiny cleanState = some cleanState :=
  ⟨fun _ _ => rfl, commit_clean_is_noop tiny cleanState (fun _ _ => rfl)⟩

theorem eraseCalls_nil_of_commitEvents (d : Driver) (st : State) (evs : List Event)
    (hev : CommitEvents d st evs) (hff : needEraseSector d st st.bufferSector = false) :
    eraseCalls evs = [] := by
  unfold eraseCalls
  rw [List.filter_eq_nil_iff]
  intro e he
  rcases hev e he with ⟨a, n, rfl⟩ | ⟨-, -, h3⟩
  · simp
  · rw [hff] at h3; cases h3

/-- C6: when the cached sector is physically all 0xFF, commit comes back
having issued no erase call, whatever the buffer holds; the buffer is
programmed as it is (for a cached sector inside the address range the sector
then holds the buffer). -/
theorem commit_erased_sector_no_erase (d : Driver) (hp : Platform d) (st : State)
    (hal : st.allocated = true)
    (hff : ∀ i, i < d.sectorSize → sectorData d st.flash st.bufferSector i = 0xFF) :
    ∃ st' evs, commit d st = some st' ∧ st'.log = st.log ++ evs ∧ eraseCalls evs = [] ∧
      (SectorOk d st.bufferSector →
        ∀ i, i < d.sectorSize → st'.flash (sectorBase d st.bufferSector + i) = st.buffer i) := by
  obtain ⟨st', h1, -, -, -, evs, h5, h6⟩ := commit_total d hp st
  have hne : needEraseSector d st st.bufferSector = false := by
    unfold needEraseSector
    rw [List.any_eq_false]
    intro i hi
    simp [hff i (List.mem_range.mp hi)]
  refine ⟨st', evs, h1, h5, eraseCalls_nil_of_commitEvents d st evs h6 hne, ?_⟩
  intro hok i hi
  obtain ⟨st2, g1, -, -, -, g5, -⟩ := commit_spec d hp st (fun _ => hok)
  have hst : st2 = st' := Option.some.inj (g1.symm.trans h1)
  rw [← hst, g5]
  unfold view
  rw [if_pos ⟨hal, by omega, by omega⟩]
  congr 1
  omega

theorem commit_erased_sector_no_erase_witness :
    ∃ st' evs, commit tiny dirtyState = some st' ∧ st'.log = dirtyState.log ++ evs ∧
      eraseCalls evs = [] ∧
      (SectorOk tiny dirtyState.bufferSector →
        ∀ i, i < tiny.sectorSize →
          st'.flash (sectorBase tiny dirtyState.bufferSector + i) = dirtyState.buffer i) :=
  commit_erased_sector_no_erase tiny ⟨by decide, by decide, by decide, by decide⟩ dirtyState rfl
    (fun _ _ => rfl)

/-- C4: with sector A cached (any buffer contents) and B another sector, both
inside the address range, loadSector(B) comes back with the physical contents
of sector A equal to the buffer held before the call, the buffer equal to the
physical contents of sector B, and B recorded as the cached sector. -/
theorem loadSector_switch_flushes (d : Driver) (hp : Platform d) (st : State) (A B : Nat)
    (force : Bool) (hal : st.allocated = true) (hA : st.bufferSector = A) (hAok : SectorOk d A)
    (hBok : SectorOk d B) (hne : B ≠ A) :
    ∃ st', loadSector d st B force = some st' ∧
      (∀ i, i < d.sectorSize → st'.flash (sectorBase d A + i) = st.buffer i) ∧
      (∀ i, i < d.sectorSize → st'.buffer i = st'.flash (sectorBase d B + i)) ∧
      st'.bufferSector = B ∧ st'.allocated = true := by
  subst hA
  obtain ⟨st1, h1, -, -, -, h5, -⟩ := commit_spec d hp st (fun _ => hAok)
  have hskip : ¬ (!force && st.allocated && B == st.bufferSector) = true := by
    intro h
    simp only [Bool.and_eq_true, beq_iff_eq] at h
    exact hne h.2
  have hc : (st.allocated && B != st.bufferSector) = true := by simp [hal, hne]
  unfold loadSector
  rw [if_neg hskip, if_pos hc]
  simp only [h1]
  refine ⟨_, rfl, ?_, ?_, rfl, rfl⟩
  · intro i hi
    show st1.flash _ = _
    rw [h5]
    unfold view
    rw [if_pos ⟨hal, by omega, by omega⟩]
    congr 1
    omega
  · intro i hi
    show memcpy st1.buffer 0 (sectorData d st1.flash B) d.sectorSize i = st1.flash _
    unfold memcpy
    rw [if_pos (by omega), sectorData_eq d st1.flash B _ hBok]
    congr 1

theorem loadSector_switch_flushes_witness :
    ∃ st', loadSector tiny dirtyState 2 false = some st' ∧
      (∀ i, i < tiny.sectorSize → st'.flash (sectorBase tiny 1 + i) = dirtyState.buffer i) ∧
      (∀ i, i < tiny.sectorSize → st'.buffer i = st'.flash (sectorBase tiny 2 + i)) ∧
      st'.bufferSector = 2 ∧ st'.allocated = true :=
  loadSector_switch_flushes tiny ⟨by decide, by decide, by decide, by decide⟩ dirtyState 1 2
    false rfl rfl ⟨by decide, by decide⟩ ⟨by decide, by decide⟩ (by decide)

theorem write_eq_writeBytes (d : Driver) (st : State) (rel : Nat) (value : Byte) (size : Nat) :
    write d st rel value size = writeBytes d st rel (fun _ => value) size := by
  unfold write writeBytes
  exact writeFuel_eq_writeBytesFuel d _ st rel value size

theorem loadSector_noswitch (d : Driver) (st : State) (s : Nat)
    (h : st.allocated = false ∨ st.bufferSector = s) :
    ∃ st1, loadSector d st s false = some st1 ∧ st1.flash = st.flash ∧ st1.log = st.log ∧
      st1.bufferSector = s ∧ st1.allocated = true := by
  by_cases hal : st.allocated = true
  · rcases h with h | h
    · rw [hal] at h; cases h
    · subst h
      exact ⟨st, loadSector_same d st hal, rfl, rfl, rfl, hal⟩
  · have hal' : st.allocated = false := by simpa using hal
    unfold loadSector
    simp only [hal', Bool.and_false, Bool.false_and, Bool.false_eq_true, if_false]
    exact ⟨_, rfl, rfl, rfl, rfl, rfl⟩

theorem writeBytes_noswitch (d : Driver) (hp : Platform d) (st : State) (rel count : Nat)
    (src : Nat → Byte)
    (hcache : st.allocated = false ∨ st.bufferSector = sectorOfRelativeAddress d rel)
    (hfit : count ≤ d.sectorSize - rel % d.sectorSize) :
    ∃ r st', writeBytes d st rel src count = some (r, st') ∧ st'.flash = st.flash ∧
      physicalCalls st'.log = physicalCalls st.log := by
  unfold writeBytes
  by_cases h0 : count = 0
  · subst h0
    refine ⟨rel, st, ?_, rfl, rfl⟩
    unfold writeBytesFuel
    simp
  · obtain ⟨st1, hload, hfl, hlog, -, -⟩ := loadSector_noswitch d st _ hcache
    refine ⟨_, _, writeBytesFuel_last d hp count st st1 rel src count (by omega) hfit hload,
      hfl, ?_⟩
    show physicalCalls (st1.log ++ [_]) = _
    rw [hlog]
    unfold physicalCalls
    rw [List.filter_append]
    simp

/-- C10: read copies the `count` physical bytes at offset + relativeAddress
onwards into the destination (and nothing else), returns relativeAddress + 1
for every count, and leaves the state as it is; it does not look at the sector
cache: after an uncommitted write to the same range that needs no sector
switch, by either overload, it delivers the same bytes as before the write. -/
theorem read_bypasses_cache (d : Driver) (st : State) (rel : Nat) (out : Nat → Byte) :
    (∀ count,
      (read d st rel out count).1 = u32 (rel + 1) ∧
      (rel + 1 < 4294967296 → (read d st rel out count).1 = rel + 1) ∧
      (∀ i, i < count → (read d st rel out count).2.1 i = st.flash (d.offset + rel + i)) ∧
      (∀ i, count ≤ i → (read d st rel out count).2.1 i = out i) ∧
      (read d st rel out count).2.2 = st) ∧
    (∀ count (src : Nat → Byte) (value : Byte), Platform d →
      (st.allocated = false ∨ st.bufferSector = sectorOfRelativeAddress d rel) →
      count ≤ d.sectorSize - rel % d.sectorSize →
      (∃ r st', writeBytes d st rel src count = some (r, st') ∧
        (read d st' rel out count).2.1 = (read d st rel out count).2.1) ∧
      (∃ r st', write d st rel value count = some (r, st') ∧
        (read d st' rel out count).2.1 = (read d st rel out count).2.1)) := by
  constructor
  · intro count
    refine ⟨rfl, fun h => u32_of_lt h, ?_, ?_, rfl⟩
    · intro i hi
      unfold read memcpy
      dsimp only
      rw [if_pos (by omega)]
      rfl
    · intro i hi
      unfold read memcpy
      dsimp only
      rw [if_neg (by omega)]
  · intro count src value hp hcache hfit
    constructor
    · obtain ⟨r, st', h1, h2, -⟩ := writeBytes_noswitch d hp st rel count src hcache hfit
      refine ⟨r, st', h1, ?_⟩
      unfold read
      rw [h2]
    · obtain ⟨r, st', h1, h2, -⟩ :=
        writeBytes_noswitch d hp st rel count (fun _ => value) hcache hfit
      refine ⟨r, st', by rw [write_eq_writeBytes]; exact h1, ?_⟩
      unfold read
      rw [h2]

theorem read_bypasses_cache_witness :
    (read tiny cleanState 5 (fun _ => 0) 2).1 = 6 ∧
      ∃ r st', write tiny cleanState 5 0xAA 2 = some (r, st') ∧
        (read tiny st' 5 (fun _ => 0) 2).2.1 = (read tiny cleanState 5 (fun _ => 0) 2).2.1 :=
  ⟨((read_bypasses_cache tiny cleanState 5 (fun _ => 0)).1 2).2.1 (by decide),
    ((read_bypasses_cache tiny cleanState 5 (fun _ => 0)).2 2 (fun _ => 0) 0xAA
      ⟨by decide, by decide, by decide, by decide⟩ (Or.inr (by decide)) (by decide)).2⟩

theorem commit_fixed (d : Driver) (hp : Platform d) (st st' : State) (hwf : WF d st)
    (h : commit d st = some st') : commit d st' = some st' := by
  obtain ⟨st2, h1, h2, h3, h4, h5, -⟩ := commit_spec d hp st hwf
  have hst : st2 = st' := Option.some.inj (h1.symm.trans h)
  subst hst
  by_cases hal : st.allocated = true
  · apply commit_of_same
    intro i hi
    rw [h3, sectorData_eq d _ _ _ (hwf hal), h5, h2]
    unfold view
    rw [if_pos ⟨hal, by omega, by omega⟩]
    congr 1
    omega
  · have hal' : st2.allocated = false := by rw [h4]; simpa using hal
    unfold commit
    simp [hal']

theorem idem_bytes (d : Driver) (hv : Valid d) (st : State) (hwf : WF d st) (rel count : Nat)
    (src : Nat → Byte) (hin : rel + count ≤ d.size) :
    ∃ r st1 c1 st2 c2, writeBytes d st rel src count = some (r, st1) ∧
      commit d st1 = some c1 ∧ writeBytes d st1 rel src count = some (r, st2) ∧
      commit d st2 = some c2 ∧ c2.flash = c1.flash ∧ commit d c2 = some c2 ∧
      commit d c1 = some c1 := by
  obtain ⟨r, mask, -, -, hrun⟩ := writeBytesFuel_effect d hv (count + 1) rel src count
    (by omega) hin
  obtain ⟨st1, hw1, hwf1, hv1⟩ := hrun st hwf
  obtain ⟨st2, hw2, hwf2, hv2⟩ := hrun st1 hwf1
  obtain ⟨c1, hc1, -, -, -, hf1, -⟩ := commit_spec d hv.platform st1 hwf1
  obtain ⟨c2, hc2, -, -, -, hf2, -⟩ := commit_spec d hv.platform st2 hwf2
  refine ⟨r, st1, c1, st2, c2, hw1, hc1, hw2, hc2, ?_, commit_fixed d hv.platform st2 c2 hwf2 hc2,
    commit_fixed d hv.platform st1 c1 hwf1 hc1⟩
  funext a
  rw [hf2, hf1, hv2, hv1]
  cases mask a <;> rfl

/-- C8: for an in-bounds write, by either overload, from any state: the write
done twice and then committed leaves the same physical flash as the write done
once and then committed, and a commit issued right after either of them
returns the state unchanged (no erase call, no program call, the flash as it
is). -/
theorem write_twice_commit_idempotent (d : Driver) (hv : Valid d) (st : State) (hwf : WF d st)
    (rel count : Nat) (hin : rel + count ≤ d.size) :
    (∀ src : Nat → Byte,
      ∃ r st1 c1 st2 c2, writeBytes d st rel src count = some (r, st1) ∧
        commit d st1 = some c1 ∧ writeBytes d st1 rel src count = some (r, st2) ∧
        commit d st2 = some c2 ∧ c2.flash = c1.flash ∧ commit d c2 = some c2 ∧
        commit d c1 = some c1) ∧
    (∀ value : Byte,
      ∃ r st1 c1 st2 c2, write d st rel value count = some (r, st1) ∧
        commit d st1 = some c1 ∧ write d st1 rel value count = some (r, st2) ∧
        commit d st2 = some c2 ∧ c2.flash = c1.flash ∧ commit d c2 = some c2 ∧
        commit d c1 = some c1) := by
  constructor
  · intro src
    exact idem_bytes d hv st hwf rel count src hin
  · intro value
    simp only [write_eq_writeBytes]
    exact idem_bytes d hv st hwf rel count (fun _ => value) hin

theorem write_twice_commit_idempotent_witness :
    ∃ r st1 c1 st2 c2, write tiny dirtyState 3 0xAA 2 = some (r, st1) ∧
      commit tiny st1 = some c1 ∧ write tiny st1 3 0xAA 2 = some (r, st2) ∧
      commit tiny st2 = some c2 ∧ c2.flash = c1.flash ∧ commit tiny c2 = some c2 ∧
      commit tiny c1 = some c1 :=
  (write_twice_commit_idempotent tiny
    ⟨⟨by decide, by decide, by decide, by decide⟩, by decide, by decide, by decide⟩ dirtyState
    (fun _ => ⟨by decide, by decide⟩) 3 2 (by decide)).2 0xAA

theorem view_of_unallocated (d : Driver) (st : State) (h : st.allocated = false) (a : Nat) :
    view d st a = st.flash a := by
  unfold view
  rw [if_neg (by simp [h])]

theorem roundtrip_small (d : Driver) (hv : Valid d) (st : State) (hwf : WF d st)
    (rel count : Nat) (src : Nat → Byte) (hin : rel + count ≤ d.size) (hsmall : count < 65536) :
    ∃ st1 st2, writeBytes d st rel src count = some (rel + count, st1) ∧
      commit d st1 = some st2 ∧
      (∀ i, i < count → st2.flash (d.offset + rel + i) = src i) ∧
      (∀ a, ¬ (d.offset + rel ≤ a ∧ a < d.offset + rel + count) → st2.flash a = view d st a) := by
  obtain ⟨r, mask, hsupp, hexact, hrun⟩ :=
    writeBytesFuel_effect d hv (count + 1) rel src count (by omega) hin
  obtain ⟨hr, hm⟩ := hexact hsmall
  obtain ⟨st1, hw1, hwf1, hv1⟩ := hrun st hwf
  obtain ⟨st2, hc, -, -, -, hf, -⟩ := commit_spec d hv.platform st1 hwf1
  subst hr
  refine ⟨st1, st2, hw1, hc, ?_, ?_⟩
  · intro i hi
    rw [hf, hv1, hm _ (by omega) (by omega)]
    show src _ = src i
    congr 1
    omega
  · intro a ha
    rw [hf, hv1, hsupp a ha]
    rfl

/-- C9: the scenario driver (offset 0x10000, size 0x2000, sector size 0x1000,
any page size that divides the sector) with no sector cached, over any flash
contents: write(0x0FF0, 0xAA, 32) returns 0x1010, and after commit the physical
bytes at relative 0x0FF0 to 0x100F, sixteen in sector 0 and sixteen in sector
1, are all 0xAA, which is also what read delivers. -/
theorem scenario_fill_across_sectors (startFree endFree pageSize : Nat) (hp0 : 0 < pageSize)
    (hpd : pageSize ∣ 0x1000) (st : State) (hno : st.allocated = false) (out : Nat → Byte) :
    ∃ st1 st2,
      write (scenario startFree endFree pageSize) st 0x0FF0 0xAA 32 = some (0x1010, st1) ∧
      commit (scenario startFree endFree pageSize) st1 = some st2 ∧
      (∀ i, i < 32 → st2.flash (0x10000 + 0x0FF0 + i) = 0xAA) ∧
      (∀ i, i < 32 →
        (read (scenario startFree endFree pageSize) st2 0x0FF0 out 32).2.1 i = 0xAA) := by
  have hv : Valid (scenario startFree endFree pageSize) :=
    ⟨⟨by norm_num [scenario], by norm_num [scenario], hp0, hpd⟩, by norm_num [scenario],
      by norm_num [scenario], by norm_num [scenario]⟩
  obtain ⟨st1, st2, h1, h2, h3, -⟩ :=
    roundtrip_small (scenario startFree endFree pageSize) hv st
      (fun h => by rw [hno] at h; cases h) 0x0FF0 32 (fun _ => 0xAA) (by norm_num [scenario]) (by decide)
  refine ⟨st1, st2, by rw [write_eq_writeBytes]; exact h1, h2, h3, ?_⟩
  intro i hi
  unfold read memcpy
  dsimp only
  rw [if_pos (by omega)]
  exact h3 (i - 0) (by omega)

theorem scenario_fill_across_sectors_witness :
    ∃ st1 st2,
      write (scenario 0 0x200000 0x100) (fresh fun _ => 0) 0x0FF0 0xAA 32 = some (0x1010, st1) ∧
      commit (scenario 0 0x200000 0x100) st1 = some st2 ∧
      (∀ i, i < 32 → st2.flash (0x10000 + 0x0FF0 + i) = 0xAA) ∧
      (∀ i, i < 32 →
        (read (scenario 0 0x200000 0x100) st2 0x0FF0 (fun _ => 0) 32).2.1 i = 0xAA) :=
  scenario_fill_across_sectors 0 0x200000 0x100 (by decide) (by decide) (fresh fun _ => 0) rfl
    (fun _ => 0)

theorem valid_rp2040 : Valid rp2040 :=
  ⟨⟨by decide, by decide, by decide, by decide⟩, by decide, by decide, by decide⟩

/-- C1 (the code departs from the claim): on a validly constructed RP2040
driver of eighteen sectors, over an erased flash, writeBytes(0, zeros, 69632)
lies inside the region; the remaining 65536 bytes are lost when the overhead is
stored in a uint16_t, so after commit the byte read back at index 4096 is still
0xFF where the source has 0. -/
theorem writeBytes_roundtrip_lost :
    validateParameters rp2040 = Except.ok () ∧ 0 + 69632 ≤ rp2040.size ∧
      ∃ st1 st2, writeBytes rp2040 (fresh fun _ => 0xFF) 0 zeros 69632 = some (69632, st1) ∧
        commit rp2040 st1 = some st2 ∧
        (read rp2040 st2 0 zeros 69632).2.1 4096 = 0xFF ∧ zeros 4096 = 0 := by
  have hv := valid_rp2040
  obtain ⟨stL, hload, hwf2, -, -, hview⟩ :=
    body_spec rp2040 hv (fresh fun _ => 0xFF) (fun h => by cases h) 0 zeros
      (rp2040.sectorSize - 0 % rp2040.sectorSize) (by decide) (le_refl _)
  have hw := writeBytesFuel_cut rp2040 hv.platform 69632 (fresh fun _ => 0xFF) stL 0 zeros 69632
    (by decide) (by decide) hload
  have e1 : u32 (0 + 69632) = 69632 := by decide
  rw [e1] at hw
  obtain ⟨st2, hc, -, -, -, hf, -⟩ := commit_spec rp2040 hv.platform _ hwf2
  refine ⟨rfl, by decide, _, st2, hw, hc, ?_, rfl⟩
  unfold read memcpy
  dsimp only
  rw [if_pos (by decide)]
  rw [hf, hview, if_neg (by decide)]
  rfl

/-- C2 (the code departs from the claim): on the RP2040 driver, from any
state, a write of 69633 bytes at relative address 0 returns 4097 with either
overload, not 0 + 69633: the overhead of 65537 bytes becomes 1 when it is
stored in a uint16_t. -/
theorem write_returns_short (st : State) (value : Byte) (src : Nat → Byte) :
    (∃ st', write rp2040 st 0 value 69633 = some (4097, st')) ∧
      (∃ st', writeBytes rp2040 st 0 src 69633 = some (4097, st')) := by
  have hp := valid_rp2040.platform
  have key : ∀ src : Nat → Byte, ∃ st', writeBytes rp2040 st 0 src 69633 = some (4097, st') := by
    intro src
    obtain ⟨st1, hl1, -⟩ := loadSector_total rp2040 hp st (sectorOfRelativeAddress rp2040 0) false
    have h1 := writeBytesFuel_more rp2040 hp 69633 st st1 0 src 69633 (by decide) (by decide) hl1
    have e1 : u32 (0 + (rp2040.sectorSize - 0 % rp2040.sectorSize)) = 4096 := by decide
    have e2 : u16 (69633 - (rp2040.sectorSize - 0 % rp2040.sectorSize)) = 1 := by decide
    rw [e1, e2] at h1
    obtain ⟨st3, hl3, -⟩ := loadSector_total rp2040 hp
      (bodyState rp2040 st1 0 src (rp2040.sectorSize - 0 % rp2040.sectorSize))
      (sectorOfRelativeAddress rp2040 4096) false
    have h2 := writeBytesFuel_last rp2040 hp 69632
      (bodyState rp2040 st1 0 src (rp2040.sectorSize - 0 % rp2040.sectorSize)) st3 4096
      (fun i => src (rp2040.sectorSize - 0 % rp2040.sectorSize + i)) 1 (by decide) (by decide) hl3
    have e3 : (69632 + 1 : Nat) = 69633 := rfl
    have e4 : u32 (4096 + 1) = 4097 := by decide
    rw [e3, e4] at h2
    unfold writeBytes
    exact ⟨_, h1.trans h2⟩
  refine ⟨?_, key src⟩
  rw [write_eq_writeBytes]
  exact key _

theorem bufferWrites_append (a b : List Event) :
    bufferWrites (a ++ b) = bufferWrites a ++ bufferWrites b := by
  unfold bufferWrites
  exact List.filter_append _ _

theorem bufferWrites_physical (evs : List Event) (h : PhysicalOnly evs) :
    bufferWrites evs = [] := by
  unfold bufferWrites
  rw [List.filter_eq_nil_iff]
  intro e he
  rcases h e he with ⟨a, n, rfl⟩ | ⟨a, n, rfl⟩ <;> simp

theorem body_total (d : Driver) (hp : Platform d) (st : State) (rel : Nat) (src : Nat → Byte)
    (ws : Nat) :
    ∃ st1, loadSector d st (sectorOfRelativeAddress d rel) false = some st1 ∧
      ∃ evs, (bodyState d st1 rel src ws).log = st.log ++ evs ∧
        bufferWrites evs =
          [Event.bufferWrite (sectorOfRelativeAddress d rel) (rel % d.sectorSize) ws] := by
  obtain ⟨st1, hload, -, -, evs, hlog, hphys⟩ := loadSector_total d hp st _ false
  refine ⟨st1, hload, evs ++ [Event.bufferWrite (sectorOfRelativeAddress d rel)
    (rel % d.sectorSize) ws], ?_, ?_⟩
  · show st1.log ++ [_] = _
    rw [hlog, List.append_assoc]
  · rw [bufferWrites_append, bufferWrites_physical evs hphys]
    rfl

theorem step_more (d : Driver) (hp : Platform d) (fuel : Nat) (st : State) (rel : Nat)
    (src : Nat → Byte) (size : Nat) (hbig : d.sectorSize - rel % d.sectorSize < size)
    (hsmall : size < 65536 + (d.sectorSize - rel % d.sectorSize))
    (hno : rel + size < 4294967296) :
    ∃ st2 evs, st2.log = st.log ++ evs ∧
      bufferWrites evs =
        [Event.bufferWrite (sectorOfRelativeAddress d rel) (rel % d.sectorSize)
          (d.sectorSize - rel % d.sectorSize)] ∧
      writeBytesFuel d (fuel + 1) st rel src size =
        writeBytesFuel d fuel st2 (rel + (d.sectorSize - rel % d.sectorSize))
          (fun i => src (d.sectorSize - rel % d.sectorSize + i))
          (size - (d.sectorSize - rel % d.sectorSize)) := by
  obtain ⟨st1, hload, evs, hlog, hbw⟩ :=
    body_total d hp st rel src (d.sectorSize - rel % d.sectorSize)
  have hu : u16 (size - (d.sectorSize - rel % d.sectorSize)) =
      size - (d.sectorSize - rel % d.sectorSize) := u16_of_lt (by omega)
  have hr : u32 (rel + (d.sectorSize - rel % d.sectorSize)) =
      rel + (d.sectorSize - rel % d.sectorSize) := u32_of_lt (by omega)
  refine ⟨_, evs, hlog, hbw, ?_⟩
  rw [writeBytesFuel_more d hp fuel st st1 rel src size hbig (by omega) hload, hu, hr]

theorem step_last (d : Driver) (hp : Platform d) (fuel : Nat) (st : State) (rel : Nat)
    (src : Nat → Byte) (size : Nat) (hpos : 0 < size)
    (hfit : size ≤ d.sectorSize - rel % d.sectorSize) (hno : rel + size < 4294967296) :
    ∃ st2 evs, st2.log = st.log ++ evs ∧
      bufferWrites evs =
        [Event.bufferWrite (sectorOfRelativeAddress d rel) (rel % d.sectorSize) size] ∧
      writeBytesFuel d (fuel + 1) st rel src size = some (rel + size, st2) := by
  obtain ⟨st1, hload, evs, hlog, hbw⟩ := body_total d hp st rel src size
  refine ⟨_, evs, hlog, hbw, ?_⟩
  rw [writeBytesFuel_last d hp fuel st st1 rel src size hpos hfit hload, u32_of_lt hno]

theorem next_sector_aligned (s rel : Nat) (hs : 0 < s) : (rel + (s - rel % s)) % s = 0 := by
  have h1 := Nat.div_add_mod rel s
  have h2 := Nat.mod_lt rel hs
  have h3 : rel + (s - rel % s) = s * (rel / s + 1) := by
    rw [Nat.mul_add, Nat.mul_one]
    omega
  rw [h3]
  exact Nat.mul_mod_right _ _

theorem split_bytes (d : Driver) (hp : Platform d) (st : State) (start k : Nat)
    (src : Nat → Byte) (f : Nat) (hk0 : 0 < k) (hk : k < d.sectorSize)
    (hmid : start % d.sectorSize ≠ 0) (hlen : 2 * d.sectorSize + k < 65536)
    (hno : start + (2 * d.sectorSize + k) < 4294967296) :
    ∃ st' evs, writeBytesFuel d (f + 4) st start src (2 * d.sectorSize + k) =
        some (start + (2 * d.sectorSize + k), st') ∧
      st'.log = st.log ++ evs ∧
      bufferWrites evs =
        if start % d.sectorSize + k ≤ d.sectorSize then
          [Event.bufferWrite (sectorOfRelativeAddress d start) (start % d.sectorSize)
              (d.sectorSize - start % d.sectorSize),
            Event.bufferWrite
              (sectorOfRelativeAddress d (start + (d.sectorSize - start % d.sectorSize))) 0
              d.sectorSize,
            Event.bufferWrite
              (sectorOfRelativeAddress d
                (start + (d.sectorSize - start % d.sectorSize) + d.sectorSize)) 0
              (start % d.sectorSize + k)]
        else
          [Event.bufferWrite (sectorOfRelativeAddress d start) (start % d.sectorSize)
              (d.sectorSize - start % d.sectorSize),
            Event.bufferWrite
              (sectorOfRelativeAddress d (start + (d.sectorSize - start % d.sectorSize))) 0
              d.sectorSize,
            Event.bufferWrite
              (sectorOfRelativeAddress d
                (start + (d.sectorSize - start % d.sectorSize) + d.sectorSize)) 0
              d.sectorSize,
            Event.bufferWrite
              (sectorOfRelativeAddress d
                (start + (d.sectorSize - start % d.sectorSize) + d.sectorSize + d.sectorSize)) 0
              (start % d.sectorSize + k - d.sectorSize)] := by
  have hS := hp.sector_pos
  have hmod := Nat.mod_lt start hS
  have hp0 : 0 < start % d.sectorSize := Nat.pos_of_ne_zero hmid
  have ha2 : (start + (d.sectorSize - start % d.sectorSize)) % d.sectorSize = 0 :=
    next_sector_aligned d.sectorSize start hS
  have ha3 : (start + (d.sectorSize - start % d.sectorSize) + d.sectorSize) % d.sectorSize = 0 := by
    rw [Nat.add_mod_right]; exact ha2
  have ha4 : (start + (d.sectorSize - start % d.sectorSize) + d.sectorSize + d.sectorSize) %
      d.sectorSize = 0 := by
    rw [Nat.add_mod_right]; exact ha3
  -- first call: the rest of the sector the write starts in
  obtain ⟨st2, ev1, hl1, hb1, hw1⟩ :=
    step_more d hp (f + 3) st start src (2 * d.sectorSize + k) (by omega) (by omega) hno
  -- second call: a whole sector
  obtain ⟨st3, ev2, hl2, hb2, hw2⟩ :=
    step_more d hp (f + 2) st2 (start + (d.sectorSize - start % d.sectorSize))
      (fun i => src (d.sectorSize - start % d.sectorSize + i))
      (2 * d.sectorSize + k - (d.sectorSize - start % d.sectorSize))
      (by rw [ha2]; omega) (by rw [ha2]; omega) (by omega)
  rw [ha2] at hb2 hw2
  simp only [Nat.sub_zero] at hb2 hw2
  by_cases hthree : start % d.sectorSize + k ≤ d.sectorSize
  · rw [if_pos hthree]
    obtain ⟨st4, ev3, hl3, hb3, hw3⟩ :=
      step_last d hp (f + 1) st3 (start + (d.sectorSize - start % d.sectorSize) + d.sectorSize)
        (fun i => src (d.sectorSize - start % d.sectorSize + (d.sectorSize + i)))
        (2 * d.sectorSize + k - (d.sectorSize - start % d.sectorSize) - d.sectorSize)
        (by omega) (by rw [ha3]; omega) (by omega)
    rw [ha3] at hb3
    refine ⟨st4, ev1 ++ ev2 ++ ev3, ?_, ?_, ?_⟩
    · rw [hw1, hw2, hw3]
      congr 2
      omega
    · rw [hl3, hl2, hl1]
      simp only [List.append_assoc]
    · rw [bufferWrites_append, bufferWrites_append, hb1, hb2, hb3]
      have e : 2 * d.sectorSize + k - (d.sectorSize - start % d.sectorSize) - d.sectorSize =
          start % d.sectorSize + k := by omega
      rw [e]
      rfl
  · rw [if_neg hthree]
    obtain ⟨st4, ev3, hl3, hb3, hw3⟩ :=
      step_more d hp (f + 1) st3 (start + (d.sectorSize - start % d.sectorSize) + d.sectorSize)
        (fun i => src (d.sectorSize - start % d.sectorSize + (d.sectorSize + i)))
        (2 * d.sectorSize + k - (d.sectorSize - start % d.sectorSize) - d.sectorSize)
        (by rw [ha3]; omega) (by rw [ha3]; omega) (by omega)
    rw [ha3] at hb3 hw3
    simp only [Nat.sub_zero] at hb3 hw3
    obtain ⟨st5, ev4, hl4, hb4, hw4⟩ :=
      step_last d hp f st4
        (start + (d.sectorSize - start % d.sectorSize) + d.sectorSize + d.sectorSize)
        (fun i => src (d.sectorSize - start % d.sectorSize + (d.sectorSize + (d.sectorSize + i))))
        (2 * d.sectorSize + k - (d.sectorSize - start % d.sectorSize) - d.sectorSize -
          d.sectorSize)
        (by omega) (by rw [ha4]; omega) (by omega)
    rw [ha4] at hb4
    refine ⟨st5, ev1 ++ ev2 ++ ev3 ++ ev4, ?_, ?_, ?_⟩
    · rw [hw1, hw2, hw3, hw4]
      congr 2
      omega
    · rw [hl4, hl3, hl2, hl1]
      simp only [List.append_assoc]
    · rw [bufferWrites_append, bufferWrites_append, bufferWrites_append, hb1, hb2, hb3, hb4]
      have e : 2 * d.sectorSize + k - (d.sectorSize - start % d.sectorSize) - d.sectorSize -
          d.sectorSize = start % d.sectorSize + k - d.sectorSize := by omega
      rw [e]
      rfl

/-- C5, the claim as stated fails: on the RP2040 driver (sectors of 4096
bytes) a write of 2 * 4096 + 4000 bytes that starts at relative address 4000
(not sector-aligned, the whole write inside the region) is carried out as four
writes into the sector buffer, of 96, 4096, 4096 and 3904 bytes, not three. -/
theorem write_split_four_not_three :
    0 < 4000 ∧ 4000 < rp2040.sectorSize ∧ 4000 % rp2040.sectorSize ≠ 0 ∧
      4000 + (2 * rp2040.sectorSize + 4000) ≤ rp2040.size ∧
      ∃ st', write rp2040 (fresh fun _ => 0xFF) 4000 0xAA (2 * rp2040.sectorSize + 4000) =
          some (16192, st') ∧
        bufferWrites st'.log =
          [Event.bufferWrite 0 4000 96, Event.bufferWrite 1 0 4096, Event.bufferWrite 2 0 4096,
            Event.bufferWrite 3 0 3904] ∧
        (bufferWrites st'.log).length ≠ 3 := by
  refine ⟨by decide, by decide, by decide, by decide, ?_⟩
  obtain ⟨st', evs, h1, h2, h3⟩ :=
    split_bytes rp2040 valid_rp2040.platform (fresh fun _ => 0xFF) 4000 4000 (fun _ => 0xAA)
      (2 * rp2040.sectorSize + 4000 - 3) (by decide) (by decide) (by decide) (by decide)
      (by decide)
  rw [if_neg (by decide)] at h3
  have hlog : bufferWrites st'.log =
      [Event.bufferWrite 0 4000 96, Event.bufferWrite 1 0 4096, Event.bufferWrite 2 0 4096,
        Event.bufferWrite 3 0 3904] := by
    rw [h2]
    show bufferWrites ([] ++ evs) = _
    rw [List.nil_append, h3]
    decide
  refine ⟨st', ?_, hlog, ?_⟩
  · rw [write_eq_writeBytes]
    exact h1
  · rw [hlog]
    decide

theorem split_either (d : Driver) (hp : Platform d) (st : State) (start k : Nat)
    (src : Nat → Byte) (value : Byte) (w : Option (Nat × State))
    (hw : w = writeBytes d st start src (2 * d.sectorSize + k) ∨
      w = write d st start value (2 * d.sectorSize + k))
    (hk0 : 0 < k) (hk : k < d.sectorSize) (hmid : start % d.sectorSize ≠ 0)
    (hlen : 2 * d.sectorSize + k < 65536)
    (hno : start + (2 * d.sectorSize + k) < 4294967296) :
    ∃ st' evs, w = some (start + (2 * d.sectorSize + k), st') ∧
      st'.log = st.log ++ evs ∧
      bufferWrites evs =
        if start % d.sectorSize + k ≤ d.sectorSize then
          [Event.bufferWrite (sectorOfRelativeAddress d start) (start % d.sectorSize)
              (d.sectorSize - start % d.sectorSize),
            Event.bufferWrite
              (sectorOfRelativeAddress d (start + (d.sectorSize - start % d.sectorSize))) 0
              d.sectorSize,
            Event.bufferWrite
              (sectorOfRelativeAddress d
                (start + (d.sectorSize - start % d.sectorSize) + d.sectorSize)) 0
              (start % d.sectorSize + k)]
        else
          [Event.bufferWrite (sectorOfRelativeAddress d start) (start % d.sectorSize)
              (d.sectorSize - start % d.sectorSize),
            Event.bufferWrite
              (sectorOfRelativeAddress d (start + (d.sectorSize - start % d.sectorSize))) 0
              d.sectorSize,
            Event.bufferWrite
              (sectorOfRelativeAddress d
                (start + (d.sectorSize - start % d.sectorSize) + d.sectorSize)) 0
              d.sectorSize,
            Event.bufferWrite
              (sectorOfRelativeAddress d
                (start + (d.sectorSize - start % d.sectorSize) + d.sectorSize + d.sectorSize)) 0
              (start % d.sectorSize + k - d.sectorSize)] := by
  have hS := hp.sector_pos
  have hfuel : 2 * d.sectorSize + k + 1 = 2 * d.sectorSize + k - 3 + 4 := by omega
  rcases hw with hw | hw
  · rw [hw]
    unfold writeBytes
    rw [hfuel]
    exact split_bytes d hp st start k src _ hk0 hk hmid hlen hno
  · rw [hw, write_eq_writeBytes]
    unfold writeBytes
    rw [hfuel]
    exact split_bytes d hp st start k (fun _ => value) _ hk0 hk hmid hlen hno

/-- C5 as amended: for a sector size with 2 * sectorSize + k below 65536,
0 < k < sectorSize and a start address that is not sector-aligned (the end of
the write below 2^32), a write of 2 * sectorSize + k bytes by either overload
returns start + length and is carried out as exactly three writes into the
sector buffer when (start mod sectorSize) + k is at most sectorSize, and as
exactly four otherwise: the rest of the first sector, one or two whole sectors,
and the remainder at the start of the last one, each inside one sector. -/
theorem write_split_three_or_four (d : Driver) (hp : Platform d) (st : State) (start k : Nat)
    (src : Nat → Byte) (value : Byte) (w : Option (Nat × State))
    (hw : w = writeBytes d st start src (2 * d.sectorSize + k) ∨
      w = write d st start value (2 * d.sectorSize + k))
    (hk0 : 0 < k) (hk : k < d.sectorSize) (hmid : start % d.sectorSize ≠ 0)
    (hlen : 2 * d.sectorSize + k < 65536)
    (hno : start + (2 * d.sectorSize + k) < 4294967296) :
    ∃ st' evs, w = some (start + (2 * d.sectorSize + k), st') ∧
      st'.log = st.log ++ evs ∧
      (bufferWrites evs =
        if start % d.sectorSize + k ≤ d.sectorSize then
          [Event.bufferWrite (sectorOfRelativeAddress d start) (start % d.sectorSize)
              (d.sectorSize - start % d.sectorSize),
            Event.bufferWrite
              (sectorOfRelativeAddress d (start + (d.sectorSize - start % d.sectorSize))) 0
              d.sectorSize,
            Event.bufferWrite
              (sectorOfRelativeAddress d
                (start + (d.sectorSize - start % d.sectorSize) + d.sectorSize)) 0
              (start % d.sectorSize + k)]
        else
          [Event.bufferWrite (sectorOfRelativeAddress d start) (start % d.sectorSize)
              (d.sectorSize - start % d.sectorSize),
            Event.bufferWrite
              (sectorOfRelativeAddress d (start + (d.sectorSize - start % d.sectorSize))) 0
              d.sectorSize,
            Event.bufferWrite
              (sectorOfRelativeAddress d
                (start + (d.sectorSize - start % d.sectorSize) + d.sectorSize)) 0
              d.sectorSize,
            Event.bufferWrite
              (sectorOfRelativeAddress d
                (start + (d.sectorSize - start % d.sectorSize) + d.sectorSize + d.sectorSize)) 0
              (start % d.sectorSize + k - d.sectorSize)]) ∧
      ∀ e ∈ bufferWrites evs,
        ∃ sector pos len, e = Event.bufferWrite sector pos len ∧ pos + len ≤ d.sectorSize := by
  have hmod := Nat.mod_lt start hp.sector_pos
  obtain ⟨st', evs, h1, h2, h3⟩ :=
    split_either d hp st start k src value w hw hk0 hk hmid hlen hno
  refine ⟨st', evs, h1, h2, h3, ?_⟩
  intro e he
  rw [h3] at he
  by_cases hthree : start % d.sectorSize + k ≤ d.sectorSize
  · rw [if_pos hthree] at he
    simp only [List.mem_cons, List.mem_singleton, List.not_mem_nil, or_false] at he
    rcases he with rfl | rfl | rfl
    · exact ⟨_, _, _, rfl, by omega⟩
    · exact ⟨_, _, _, rfl, by omega⟩
    · exact ⟨_, _, _, rfl, by omega⟩
  · rw [if_neg hthree] at he
    simp only [List.mem_cons, List.mem_singleton, List.not_mem_nil, or_false] at he
    rcases he with rfl | rfl | rfl | rfl
    · exact ⟨_, _, _, rfl, by omega⟩
    · exact ⟨_, _, _, rfl, by omega⟩
    · exact ⟨_, _, _, rfl, by omega⟩
    · exact ⟨_, _, _, rfl, by omega⟩

theorem write_split_three_or_four_witness :
    ∃ st' evs, write tiny (fresh fun _ => 0x0F) 1 0xAA (2 * tiny.sectorSize + 1) =
        some (1 + (2 * tiny.sectorSize + 1), st') ∧
      st'.log = (fresh fun _ => 0x0F).log ++ evs ∧
      bufferWrites evs =
        [Event.bufferWrite 0 1 3, Event.bufferWrite 1 0 4, Event.bufferWrite 2 0 2] ∧
      ∀ e ∈ bufferWrites evs,
        ∃ sector pos len, e = Event.bufferWrite sector pos len ∧ pos + len ≤ tiny.sectorSize :=
  write_split_three_or_four tiny ⟨by decide, by decide, by decide, by decide⟩
    (fresh fun _ => 0x0F) 1 1 zeros 0xAA _ (Or.inr rfl) (by decide) (by decide) (by decide)
    (by decide) (by decide)

theorem needEraseSector_of_needEraseForBuffer (d : Driver) (st : State)
    (h : needEraseForBuffer d st = true) : needEraseSector d st st.bufferSector = true := by
  unfold needEraseForBuffer at h
  rw [List.any_eq_true] at h
  obtain ⟨i, hi, hc⟩ := h
  unfold needEraseSector
  rw [List.any_eq_true]
  refine ⟨i, hi, ?_⟩
  simp only [Bool.and_eq_true, bne_iff_ne, ne_eq] at hc
  simp only [bne_iff_ne, ne_eq]
  intro hff
  apply hc.2
  rw [hff]
  show (st.buffer i).val &&& (255 - 255) = 0
  simp

theorem needWriteSector_of_needEraseForBuffer (d : Driver) (st : State)
    (h : needEraseForBuffer d st = true) : needWriteSector d st = true := by
  unfold needEraseForBuffer at h
  rw [List.any_eq_true] at h
  obtain ⟨i, hi, hc⟩ := h
  simp only [Bool.and_eq_true, bne_iff_ne, ne_eq] at hc
  unfold needWriteSector
  rw [memcmp_true_iff]
  exact ⟨i, List.mem_range.mp hi, hc.1⟩

/-- C19: whenever needEraseForBuffer is true, needEraseSector of the cached
sector is true as well, so the eraseSector call of writeSector never takes its
skip branch: it erases the sector and logs the erase call, and a commit (which
then has something to write) issues that erase call first, before its program
calls. -/
theorem erase_skip_never_taken_on_commit (d : Driver) (st : State)
    (h : needEraseForBuffer d st = true) :
    needEraseSector d st st.bufferSector = true ∧
      eraseSector d st st.bufferSector =
        { st with
          flash := flash_range_erase st.flash (u32 (d.offset + st.bufferSector * d.sectorSize))
            d.sectorSize
          log := st.log ++
            [Event.erase (u32 (d.offset + st.bufferSector * d.sectorSize)) d.sectorSize] } ∧
      (Platform d → st.allocated = true →
        ∃ st' progs, commit d st = some st' ∧
          st'.log = st.log ++
            Event.erase (u32 (d.offset + st.bufferSector * d.sectorSize)) d.sectorSize :: progs ∧
          OnlyPrograms progs) := by
  have hn := needEraseSector_of_needEraseForBuffer d st h
  have he : eraseSector d st st.bufferSector =
      { st with
        flash := flash_range_erase st.flash (u32 (d.offset + st.bufferSector * d.sectorSize))
          d.sectorSize
        log := st.log ++
          [Event.erase (u32 (d.offset + st.bufferSector * d.sectorSize)) d.sectorSize] } := by
    unfold eraseSector
    simp [hn]
  refine ⟨hn, he, ?_⟩
  intro hp hal
  have hw := needWriteSector_of_needEraseForBuffer d st h
  obtain ⟨st', h1, -, -, -, progs, h5, h6⟩ :=
    programChunks_total d hp (d.sectorSize + 1) (eraseSector d st st.bufferSector) 0
      (dvd_zero _) (by omega) (by omega)
  refine ⟨st', progs, ?_, ?_, h6⟩
  · unfold commit writeSector
    simp only [hal, hw, h, Bool.not_true, Bool.false_eq_true, if_false, if_true]
    exact h1
  · rw [h5, he]
    simp

theorem erase_skip_never_taken_on_commit_witness :
    needEraseSector tiny staleState staleState.bufferSector = true ∧
      ∃ st' progs, commit tiny staleState = some st' ∧
        st'.log = staleState.log ++
          Event.erase
            (u32 (tiny.offset + staleState.bufferSector * tiny.sectorSize)) tiny.sectorSize ::
            progs ∧
        OnlyPrograms progs :=
  ⟨(erase_skip_never_taken_on_commit tiny staleState (by decide)).1,
    (erase_skip_never_taken_on_commit tiny staleState (by decide)).2.2 (by decide) rfl⟩

/-- C20: with sector S cached, loadSector(S, force = true) comes back with the
flash and the log of erase and program calls as they were and S still cached;
the buffer now holds the physical contents of S, so every buffer byte that
differed from the flash has lost its pending value. -/
theorem forced_reload_discards_pending (d : Driver) (st : State) (hal : st.allocated = true) :
    ∃ st', loadSector d st st.bufferSector true = some st' ∧ st'.flash = st.flash ∧
      st'.log = st.log ∧ st'.bufferSector = st.bufferSector ∧ st'.allocated = true ∧
      (∀ i, i < d.sectorSize → st'.buffer i = sectorData d st.flash st.bufferSector i) ∧
      (∀ i, i < d.sectorSize → st.buffer i ≠ sectorData d st.flash st.bufferSector i →
        st'.buffer i ≠ st.buffer i) := by
  have hbuf : ∀ i, i < d.sectorSize →
      memcpy st.buffer 0 (sectorData d st.flash st.bufferSector) d.sectorSize i =
        sectorData d st.flash st.bufferSector i := by
    intro i hi
    unfold memcpy
    rw [if_pos (by omega)]
    rfl
  unfold loadSector
  simp only [hal, Bool.not_true, Bool.false_and, Bool.false_eq_true, if_false, bne_self_eq_false,
    Bool.and_false]
  refine ⟨_, rfl, rfl, rfl, rfl, rfl, hbuf, ?_⟩
  intro i hi hne
  show memcpy st.buffer 0 (sectorData d st.flash st.bufferSector) d.sectorSize i ≠ _
  rw [hbuf i hi]
  exact fun h => hne h.symm

theorem forced_reload_discards_pending_witness :
    ∃ st', loadSector tiny dirtyState dirtyState.bufferSector true = some st' ∧
      st'.flash = dirtyState.flash ∧ st'.log = dirtyState.log ∧
      st'.bufferSector = dirtyState.bufferSector ∧ st'.allocated = true ∧
      (∀ i, i < tiny.sectorSize →
        st'.buffer i = sectorData tiny dirtyState.flash dirtyState.bufferSector i) ∧
      (∀ i, i < tiny.sectorSize →
        dirtyState.buffer i ≠ sectorData tiny dirtyState.flash dirtyState.bufferSector i →
        st'.buffer i ≠ dirtyState.buffer i) :=
  forced_reload_discards_pending tiny dirtyState rfl

/-- C12: commit with nothing cached returns the state it was given; with a
sector S cached, commit comes back with S still cached and the same buffer
contents, and loadSector(S) without force then returns that state unchanged
(buffer, cached sector, flash and log). -/
theorem cache_survives_commit (d : Driver) (st : State) :
    (st.allocated = false → commit d st = some st) ∧
      (Platform d → st.allocated = true →
        ∃ st', commit d st = some st' ∧ st'.allocated = true ∧
          st'.bufferSector = st.bufferSector ∧ st'.buffer = st.buffer ∧
          loadSector d st' st.bufferSector false = some st') := by
  constructor
  · intro hal
    unfold commit
    simp [hal]
  · intro hp hal
    obtain ⟨st', h1, h2, h3, h4, -⟩ := commit_total d hp st
    refine ⟨st', h1, h4.trans hal, h3, h2, ?_⟩
    rw [← h3]
    exact loadSector_same d st' (h4.trans hal)

theorem cache_survives_commit_witness :
    commit tiny (fresh fun _ => 0x0F) = some (fresh fun _ => 0x0F) ∧
      ∃ st', commit tiny dirtyState = some st' ∧ st'.allocated = true ∧
        st'.bufferSector = dirtyState.bufferSector ∧ st'.buffer = dirtyState.buffer ∧
        loadSector tiny st' dirtyState.bufferSector false = some st' :=
  ⟨(cache_survives_commit tiny (fresh fun _ => 0x0F)).1 rfl,
    (cache_survives_commit tiny dirtyState).2 (by decide) rfl⟩

theorem writeBytes_cached (d : Driver) (hp : Platform d) (st : State) (rel count : Nat)
    (src : Nat → Byte) (hal : st.allocated = true) (hlt : st.bufferSector < 65536)
    (hsec : rel / d.sectorSize = st.bufferSector)
    (hfit : rel % d.sectorSize + count ≤ d.sectorSize) :
    ∃ r st' evs, writeBytes d st rel src count = some (r, st') ∧ st'.flash = st.flash ∧
      st'.log = st.log ++ evs ∧ physicalCalls evs = [] ∧
      st'.bufferSector = st.bufferSector ∧ st'.allocated = true ∧
      ∀ i, st'.buffer i =
        if rel % d.sectorSize ≤ i ∧ i < rel % d.sectorSize + count then
          src (i - rel % d.sectorSize)
        else st.buffer i := by
  unfold writeBytes
  by_cases h0 : count = 0
  · subst h0
    refine ⟨rel, st, [], ?_, rfl, by simp, rfl, rfl, hal, ?_⟩
    · unfold writeBytesFuel
      simp
    · intro i
      rw [if_neg (by omega)]
  · have hs : sectorOfRelativeAddress d rel = st.bufferSector := by
      unfold sectorOfRelativeAddress
      rw [hsec]
      exact u16_of_lt hlt
    have hload : loadSector d st (sectorOfRelativeAddress d rel) false = some st := by
      rw [hs]
      exact loadSector_same d st hal
    refine ⟨_, _, [Event.bufferWrite (sectorOfRelativeAddress d rel) (rel % d.sectorSize) count],
      writeBytesFuel_last d hp count st st rel src count (by omega) (by omega) hload,
      rfl, rfl, rfl, rfl, hal, fun i => rfl⟩

/-- C11: with sector S cached, a write by either overload whose range lies
inside sector S comes back having issued no erase and no program call, with
the physical flash unchanged and S still the cached sector; the buffer holds
the written data at positions relativeAddress mod sectorSize onwards, count of
them, and is unchanged at every other position. -/
theorem write_inside_cached_sector_is_buffered (d : Driver) (hp : Platform d) (st : State)
    (rel count : Nat) (src : Nat → Byte) (value : Byte) (hal : st.allocated = true)
    (hlt : st.bufferSector < 65536) (hsec : rel / d.sectorSize = st.bufferSector)
    (hfit : rel % d.sectorSize + count ≤ d.sectorSize) :
    (∃ r st' evs, writeBytes d st rel src count = some (r, st') ∧ st'.flash = st.flash ∧
      st'.log = st.log ++ evs ∧ physicalCalls evs = [] ∧
      st'.bufferSector = st.bufferSector ∧ st'.allocated = true ∧
      ∀ i, st'.buffer i =
        if rel % d.sectorSize ≤ i ∧ i < rel % d.sectorSize + count then
          src (i - rel % d.sectorSize)
        else st.buffer i) ∧
    (∃ r st' evs, write d st rel value count = some (r, st') ∧ st'.flash = st.flash ∧
      st'.log = st.log ++ evs ∧ physicalCalls evs = [] ∧
      st'.bufferSector = st.bufferSector ∧ st'.allocated = true ∧
      ∀ i, st'.buffer i =
        if rel % d.sectorSize ≤ i ∧ i < rel % d.sectorSize + count then value
        else st.buffer i) := by
  refine ⟨writeBytes_cached d hp st rel count src hal hlt hsec hfit, ?_⟩
  rw [write_eq_writeBytes]
  exact writeBytes_cached d hp st rel count (fun _ => value) hal hlt hsec hfit

theorem write_inside_cached_sector_is_buffered_witness :
    ∃ r st' evs, write tiny cleanState 5 0xAA 2 = some (r, st') ∧ st'.flash = cleanState.flash ∧
      st'.log = cleanState.log ++ evs ∧ physicalCalls evs = [] ∧
      st'.bufferSector = cleanState.bufferSector ∧ st'.allocated = true ∧
      ∀ i, st'.buffer i =
        if 5 % tiny.sectorSize ≤ i ∧ i < 5 % tiny.sectorSize + 2 then 0xAA
        else cleanState.buffer i :=
  (write_inside_cached_sector_is_buffered tiny (by decide) cleanState 5 2 zeros 0xAA rfl
    (by decide) (by decide) (by decide)).2

theorem nat_clear_eq_xor_and (b f : Nat) (hb : b < 256) (hf : f < 256) :
    b &&& (255 - f) = (b ^^^ f) &&& b := by
  apply Nat.eq_of_testBit_eq
  intro i
  have h2 : (255 - f) = 2 ^ 8 - (f + 1) := by omega
  rw [Nat.testBit_land, Nat.testBit_land, Nat.testBit_xor, h2,
    Nat.testBit_two_pow_sub_succ (by omega)]
  by_cases hi : i < 8
  · simp only [hi, decide_True, Bool.true_and]
    cases f.testBit i <;> cases b.testBit i <;> rfl
  · have hbi : b.testBit i = false := by
      apply Nat.testBit_lt_two_pow
      calc b < 256 := hb
        _ = 2 ^ 8 := by norm_num
        _ ≤ 2 ^ i := Nat.pow_le_pow_right (by norm_num) (by omega)
    simp [hbi]

theorem byte_xor_and_val (b f : Byte) :
    ((b ^^^ f) &&& b).val = b.val &&& (255 - f.val) := by
  have hx : b.val ^^^ f.val < 256 := by
    have := @Nat.xor_lt_two_pow b.val f.val 8 (by simp) (by simp)
    simpa using this
  have ha : (b.val ^^^ f.val) &&& b.val < 256 := by
    have := @Nat.and_lt_two_pow (b.val ^^^ f.val) b.val 8 (by simp)
    simpa using this
  show (((b.val ^^^ f.val) % 256) &&& b.val) % 256 = _
  rw [Nat.mod_eq_of_lt hx, Nat.mod_eq_of_lt ha, nat_clear_eq_xor_and b.val f.val b.isLt f.isLt]

theorem byte_erase_test (b f : Byte) :
    ((b != f) && ((b.val &&& (255 - f.val)) != 0)) = true ↔ ((b ^^^ f) &&& b) ≠ 0 := by
  have hv := byte_xor_and_val b f
  simp only [Bool.and_eq_true, bne_iff_ne, ne_eq]
  constructor
  · rintro ⟨-, h⟩ h0
    apply h
    rw [← hv, h0]
    rfl
  · intro h
    have hne : b.val &&& (255 - f.val) ≠ 0 := by
      intro h0
      apply h
      apply Fin.ext
      rw [hv, h0]
      rfl
    refine ⟨?_, hne⟩
    intro hbf
    apply hne
    rw [hbf, nat_clear_eq_xor_and f.val f.val f.isLt f.isLt, Nat.xor_self]
    simp

theorem byte_erase_test_bits (b f : Byte) :
    ((b ^^^ f) &&& b) ≠ 0 ↔ ∃ j, b.val.testBit j = true ∧ f.val.testBit j = false := by
  have hv := byte_xor_and_val b f
  have hn := nat_clear_eq_xor_and b.val f.val b.isLt f.isLt
  constructor
  · intro h
    have hne : (b.val ^^^ f.val) &&& b.val ≠ 0 := by
      intro h0
      apply h
      apply Fin.ext
      rw [hv, hn, h0]
      rfl
    obtain ⟨j, hj⟩ := Nat.ne_zero_implies_bit_true hne
    rw [Nat.testBit_land, Nat.testBit_xor] at hj
    refine ⟨j, ?_, ?_⟩
    · revert hj
      cases b.val.testBit j <;> cases f.val.testBit j <;> simp
    · revert hj
      cases b.val.testBit j <;> cases f.val.testBit j <;> simp
  · rintro ⟨j, hb, hf⟩ h0
    have h1 : ((b ^^^ f) &&& b).val = 0 := by rw [h0]; rfl
    rw [hv, hn] at h1
    have h2 := congrArg (fun x => Nat.testBit x j) h1
    simp only [Nat.testBit_land, Nat.testBit_xor, hb, hf, Nat.zero_testBit] at h2
    cases h2

/-- C16: needEraseForBuffer is true exactly when the test of the
specification holds, some byte position having (bufferByte XOR flashByte) AND
bufferByte not zero; and that is exactly when some bit is 1 in the buffer and 0
in the flash. -/
theorem needEraseForBuffer_iff_spec (d : Driver) (st : State) :
    (needEraseForBuffer d st = true ↔ eraseNeededBySpec d st) ∧
      (eraseNeededBySpec d st ↔ someBitToSet d st) := by
  constructor
  · unfold needEraseForBuffer eraseNeededBySpec
    rw [List.any_eq_true]
    constructor
    · rintro ⟨i, hi, hc⟩
      exact ⟨i, List.mem_range.mp hi, (byte_erase_test _ _).mp hc⟩
    · rintro ⟨i, hi, hc⟩
      exact ⟨i, List.mem_range.mpr hi, (byte_erase_test _ _).mpr hc⟩
  · unfold eraseNeededBySpec someBitToSet
    constructor
    · rintro ⟨i, hi, hc⟩
      exact ⟨i, hi, (byte_erase_test_bits _ _).mp hc⟩
    · rintro ⟨i, hi, hc⟩
      exact ⟨i, hi, (byte_erase_test_bits _ _).mpr hc⟩

/-- C15: with a sector S cached (inside the address range), whatever the
buffer and the flash hold, commit comes back with the physical contents of
sector S equal to the buffer byte for byte, every physical byte outside
sector S as it was, and buffer and cached sector unchanged. -/
theorem commit_reconciles_sector (d : Driver) (hp : Platform d) (st : State)
    (hal : st.allocated = true) (hok : SectorOk d st.bufferSector) :
    ∃ st', commit d st = some st' ∧
      (∀ i, i < d.sectorSize → st'.flash (sectorBase d st.bufferSector + i) = st.buffer i) ∧
      (∀ a, ¬ (sectorBase d st.bufferSector ≤ a ∧
          a < sectorBase d st.bufferSector + d.sectorSize) → st'.flash a = st.flash a) ∧
      st'.buffer = st.buffer ∧ st'.bufferSector = st.bufferSector ∧ st'.allocated = true := by
  obtain ⟨st', h1, h2, h3, h4, h5, -⟩ := commit_spec d hp st (fun _ => hok)
  refine ⟨st', h1, ?_, ?_, h2, h3, h4.trans hal⟩
  · intro i hi
    rw [h5]
    unfold view
    rw [if_pos ⟨hal, by omega, by omega⟩]
    congr 1
    omega
  · intro a ha
    rw [h5]
    unfold view
    rw [if_neg (fun h => ha h.2)]

theorem commit_reconciles_sector_witness :
    ∃ st', commit tiny staleState = some st' ∧
      (∀ i, i < tiny.sectorSize →
        st'.flash (sectorBase tiny staleState.bufferSector + i) = staleState.buffer i) ∧
      (∀ a, ¬ (sectorBase tiny staleState.bufferSector ≤ a ∧
          a < sectorBase tiny staleState.bufferSector + tiny.sectorSize) →
        st'.flash a = staleState.flash a) ∧
      st'.buffer = staleState.buffer ∧ st'.bufferSector = staleState.bufferSector ∧
      st'.allocated = true :=
  commit_reconciles_sector tiny (by decide) staleState rfl (by decide)

theorem frame_bytes (d : Driver) (hv : Valid d) (st : State) (hwf : WF d st)
    (hclean : st.allocated = true → ∀ i, i < d.sectorSize →
      st.buffer i = sectorData d st.flash st.bufferSector i)
    (rel count : Nat) (src : Nat → Byte) (hin : rel + count ≤ d.size) :
    ∃ r st1 st2, writeBytes d st rel src count = some (r, st1) ∧ commit d st1 = some st2 ∧
      ∀ a, ¬ (d.offset + rel ≤ a ∧ a < d.offset + rel + count) → st2.flash a = st.flash a := by
  obtain ⟨r, mask, hsupp, -, hrun⟩ :=
    writeBytesFuel_effect d hv (count + 1) rel src count (by omega) hin
  obtain ⟨st1, hw1, hwf1, hv1⟩ := hrun st hwf
  obtain ⟨st2, hc, -, -, -, hf, -⟩ := commit_spec d hv.platform st1 hwf1
  refine ⟨r, st1, st2, hw1, hc, ?_⟩
  intro a ha
  rw [hf, hv1, hsupp a ha]
  show view d st a = st.flash a
  unfold view
  by_cases hin2 : st.allocated = true ∧ sectorBase d st.bufferSector ≤ a ∧
      a < sectorBase d st.bufferSector + d.sectorSize
  · rw [if_pos hin2, hclean hin2.1 _ (by omega), sectorData_eq d _ _ _ (hwf hin2.1)]
    congr 1
    omega
  · rw [if_neg hin2]

/-- C18: from a state without uncommitted changes (nothing cached, or the
buffer equal to the cached sector), an in-bounds write by either overload followed by commit
leaves every physical byte outside offset + relativeAddress up to
offset + relativeAddress + count with the value it had before the write, the
other bytes of the touched sectors included. -/
theorem write_commit_keeps_neighbours (d : Driver) (hv : Valid d) (st : State) (hwf : WF d st)
    (hclean : st.allocated = true → ∀ i, i < d.sectorSize →
      st.buffer i = sectorData d st.flash st.bufferSector i)
    (rel count : Nat) (src : Nat → Byte) (value : Byte) (hin : rel + count ≤ d.size) :
    (∃ r st1 st2, writeBytes d st rel src count = some (r, st1) ∧ commit d st1 = some st2 ∧
      ∀ a, ¬ (d.offset + rel ≤ a ∧ a < d.offset + rel + count) → st2.flash a = st.flash a) ∧
    (∃ r st1 st2, write d st rel value count = some (r, st1) ∧ commit d st1 = some st2 ∧
      ∀ a, ¬ (d.offset + rel ≤ a ∧ a < d.offset + rel + count) → st2.flash a = st.flash a) := by
  refine ⟨frame_bytes d hv st hwf hclean rel count src hin, ?_⟩
  rw [write_eq_writeBytes]
  exact frame_bytes d hv st hwf hclean rel count (fun _ => value) hin

theorem write_commit_keeps_neighbours_witness :
    ∃ r st1 st2, write tiny cleanState 3 0xAA 2 = some (r, st1) ∧ commit tiny st1 = some st2 ∧
      ∀ a, ¬ (tiny.offset + 3 ≤ a ∧ a < tiny.offset + 3 + 2) →
        st2.flash a = cleanState.flash a :=
  (write_commit_keeps_neighbours tiny (by decide) cleanState (by decide) (fun _ _ _ => rfl) 3 2
    zeros 0xAA (by decide)).2

theorem narrow_roundtrip (d : Driver) (hv : Valid d) (st : State) (hwf : WF d st)
    (rel n v : Nat) (hn : n < 65536) (hin : rel + n ≤ d.size) :
    ∃ st1 st2, writeBytes d st rel (bytesOf v) n = some (rel + n, st1) ∧
      commit d st1 = some st2 ∧
      (∀ i, i < n → st2.flash (d.offset + rel + i) = bytesOf v i) ∧
      (∀ i, i < n → (read d st2 rel (bytesOf 0) n).2.1 i = bytesOf v i) := by
  obtain ⟨st1, st2, h1, h2, h3, -⟩ := roundtrip_small d hv st hwf rel n (bytesOf v) hin hn
  refine ⟨st1, st2, h1, h2, h3, ?_⟩
  intro i hi
  unfold read memcpy
  dsimp only
  rw [if_pos (by omega)]
  exact h3 (i - 0) (by omega)

theorem byteOf_val (b : Byte) : byteOf b.val = b := by
  apply Fin.ext
  show b.val % 256 = b.val
  exact Nat.mod_eq_of_lt b.isLt

theorem valueOf_two (v : Nat) (hv : v < 65536) (out : Nat → Byte)
    (h : ∀ i, i < 2 → out i = bytesOf v i) : valueOf out 2 = v := by
  have h0 := h 0 (by omega)
  have h1 := h 1 (by omega)
  show 0 + (out 0).val * 256 ^ 0 + (out 1).val * 256 ^ 1 = v
  rw [h0, h1]
  show 0 + (v / 256 ^ 0 % 256) * 256 ^ 0 + (v / 256 ^ 1 % 256) * 256 ^ 1 = v
  norm_num
  omega

theorem valueOf_four (v : Nat) (hv : v < 4294967296) (out : Nat → Byte)
    (h : ∀ i, i < 4 → out i = bytesOf v i) : valueOf out 4 = v := by
  have h0 := h 0 (by omega)
  have h1 := h 1 (by omega)
  have h2 := h 2 (by omega)
  have h3 := h 3 (by omega)
  show 0 + (out 0).val * 256 ^ 0 + (out 1).val * 256 ^ 1 + (out 2).val * 256 ^ 2 +
    (out 3).val * 256 ^ 3 = v
  rw [h0, h1, h2, h3]
  show 0 + (v / 256 ^ 0 % 256) * 256 ^ 0 + (v / 256 ^ 1 % 256) * 256 ^ 1 +
    (v / 256 ^ 2 % 256) * 256 ^ 2 + (v / 256 ^ 3 % 256) * 256 ^ 3 = v
  norm_num
  omega

/-- C13: on a valid driver, for an in-bounds address (the value may straddle a
sector boundary), writeByte, writeWord and writeInt return relativeAddress + 1,
+ 2 and + 4, and after commit readByte, readWord and readInt at that address
return the value written; the flash holds the bytes of the value in
little-endian order, low byte first. -/
theorem narrow_helpers_roundtrip (d : Driver) (hv : Valid d) (st : State) (hwf : WF d st)
    (rel : Nat) :
    (∀ v : Byte, rel + 1 ≤ d.size →
      ∃ st1 st2, writeByte d st rel v = some (rel + 1, st1) ∧ commit d st1 = some st2 ∧
        readByte d st2 rel = v ∧ st2.flash (d.offset + rel) = v) ∧
    (∀ v : Nat, v < 65536 → rel + 2 ≤ d.size →
      ∃ st1 st2, writeWord d st rel v = some (rel + 2, st1) ∧ commit d st1 = some st2 ∧
        readWord d st2 rel = v ∧
        ∀ i, i < 2 → st2.flash (d.offset + rel + i) = byteOf (v / 256 ^ i)) ∧
    (∀ v : Nat, v < 4294967296 → rel + 4 ≤ d.size →
      ∃ st1 st2, writeInt d st rel v = some (rel + 4, st1) ∧ commit d st1 = some st2 ∧
        readInt d st2 rel = v ∧
        ∀ i, i < 4 → st2.flash (d.offset + rel + i) = byteOf (v / 256 ^ i)) := by
  refine ⟨?_, ?_, ?_⟩
  · intro v hin
    obtain ⟨st1, st2, h1, h2, h3, h4⟩ :=
      narrow_roundtrip d hv st hwf rel 1 v.val (by omega) hin
    have hb : bytesOf v.val 0 = v := by
      show byteOf (v.val / 256 ^ 0) = v
      rw [Nat.pow_zero, Nat.div_one]
      exact byteOf_val v
    refine ⟨st1, st2, h1, h2, ?_, ?_⟩
    · show (read d st2 rel (bytesOf 0) 1).2.1 0 = v
      rw [h4 0 (by omega), hb]
    · have := h3 0 (by omega)
      rw [Nat.add_zero, hb] at this
      exact this
  · intro v hv16 hin
    obtain ⟨st1, st2, h1, h2, h3, h4⟩ :=
      narrow_roundtrip d hv st hwf rel 2 v (by omega) hin
    refine ⟨st1, st2, ?_, h2, valueOf_two v hv16 _ h4, h3⟩
    unfold writeWord
    rw [u16_of_lt hv16]
    exact h1
  · intro v hv32 hin
    obtain ⟨st1, st2, h1, h2, h3, h4⟩ :=
      narrow_roundtrip d hv st hwf rel 4 v (by omega) hin
    refine ⟨st1, st2, ?_, h2, valueOf_four v hv32 _ h4, h3⟩
    unfold writeInt
    rw [u32_of_lt hv32]
    exact h1

theorem narrow_helpers_roundtrip_witness :
    ∃ st1 st2, writeInt tiny dirtyState 2 0x12345678 = some (2 + 4, st1) ∧
      commit tiny st1 = some st2 ∧ readInt tiny st2 2 = 0x12345678 ∧
      ∀ i, i < 4 → st2.flash (tiny.offset + 2 + i) = byteOf (0x12345678 / 256 ^ i) :=
  (narrow_helpers_roundtrip tiny (by decide) dirtyState (by decide) 2).2.2 0x12345678
    (by decide) (by decide)

theorem writeBytesFuel_total (d : Driver) (hp : Platform d) :
    ∀ fuel (st : State) rel (src : Nat → Byte) size, size < fuel →
      ∃ r st', writeBytesFuel d fuel st rel src size = some (r, st') := by
  intro fuel
  induction fuel with
  | zero => intro st rel src size h; omega
  | succ fuel ih =>
    intro st rel src size hfuel
    obtain ⟨-, -, hwpos, -⟩ := write_locals d hp rel
    obtain ⟨st1, hload, -⟩ := loadSector_total d hp st (sectorOfRelativeAddress d rel) false
    by_cases h0 : size = 0
    · subst h0
      refine ⟨rel, st, ?_⟩
      unfold writeBytesFuel
      simp
    · by_cases hbig : d.sectorSize - rel % d.sectorSize < size
      · by_cases hcut : u16 (size - (d.sectorSize - rel % d.sectorSize)) = 0
        · exact ⟨_, _, writeBytesFuel_cut d hp fuel st st1 rel src size hbig hcut hload⟩
        · have hle : u16 (size - (d.sectorSize - rel % d.sectorSize)) ≤
              size - (d.sectorSize - rel % d.sectorSize) := Nat.mod_le _ _
          obtain ⟨r, st', h⟩ :=
            ih (bodyState d st1 rel src (d.sectorSize - rel % d.sectorSize))
              (u32 (rel + (d.sectorSize - rel % d.sectorSize)))
              (fun i => src (d.sectorSize - rel % d.sectorSize + i))
              (u16 (size - (d.sectorSize - rel % d.sectorSize))) (by omega)
          refine ⟨r, st', ?_⟩
          rw [writeBytesFuel_more d hp fuel st st1 rel src size hbig (Nat.pos_of_ne_zero hcut)
            hload]
          exact h
      · exact ⟨_, _, writeBytesFuel_last d hp fuel st st1 rel src size (by omega) (by omega)
          hload⟩

/-- C14: write has no error result, on any platform it comes back with an
address and a state for every address and count, checked or not; and on the
validly constructed RP2040 driver the write of one byte at relative address
0x12000, which is the size of the region, followed by commit changes the
physical byte at flash offset 0x22000, right behind the reserved region, from
0xFF to 0xAA. -/
theorem write_is_not_bounds_checked :
    (∀ (d : Driver) (st : State) (rel size : Nat) (src : Nat → Byte) (value : Byte),
      Platform d →
        (∃ r st', writeBytes d st rel src size = some (r, st')) ∧
          (∃ r st', write d st rel value size = some (r, st'))) ∧
      (validateParameters rp2040 = Except.ok () ∧ 0x12000 + 1 > rp2040.size ∧
        ∃ r st1 st2, write rp2040 (fresh fun _ => 0xFF) 0x12000 0xAA 1 = some (r, st1) ∧
          commit rp2040 st1 = some st2 ∧ st2.flash 0x22000 = 0xAA ∧
          (fresh fun _ => 0xFF).flash 0x22000 = 0xFF ∧
          ¬ (rp2040.offset ≤ 0x22000 ∧ 0x22000 < rp2040.offset + rp2040.size)) := by
  constructor
  · intro d st rel size src value hp
    refine ⟨writeBytesFuel_total d hp (size + 1) st rel src size (by omega), ?_⟩
    rw [write_eq_writeBytes]
    exact writeBytesFuel_total d hp (size + 1) st rel (fun _ => value) size (by omega)
  · have hp := valid_rp2040.platform
    obtain ⟨stL, hload, -, -, hbs, hal⟩ :=
      loadSector_noswitch rp2040 (fresh fun _ => 0xFF) (sectorOfRelativeAddress rp2040 0x12000)
        (Or.inl rfl)
    have hw := writeBytesFuel_last rp2040 hp 1 (fresh fun _ => 0xFF) stL 0x12000
      (fun _ => 0xAA) 1 (by decide) (by decide) hload
    have hsec : sectorOfRelativeAddress rp2040 0x12000 = 18 := by decide
    have hwf : WF rp2040 (bodyState rp2040 stL 0x12000 (fun _ => 0xAA) 1) := by
      intro _
      show SectorOk rp2040 stL.bufferSector
      rw [hbs, hsec]
      decide
    obtain ⟨st2, hc, -, -, -, hf, -⟩ := commit_spec rp2040 hp _ hwf
    refine ⟨rfl, by decide, u32 (0x12000 + 1), bodyState rp2040 stL 0x12000 (fun _ => 0xAA) 1,
      st2, ?_, hc, ?_, rfl, by decide⟩
    · rw [write_eq_writeBytes]
      exact hw
    · rw [hf]
      unfold view
      have hbase : sectorBase rp2040
          (bodyState rp2040 stL 0x12000 (fun _ => 0xAA) 1).bufferSector = 0x22000 := by
        show sectorBase rp2040 stL.bufferSector = _
        rw [hbs, hsec]
        decide
      rw [hbase, if_pos ⟨hal, by decide, by decide⟩]
      show memcpy stL.buffer (0x12000 % rp2040.sectorSize) (fun _ => 0xAA) 1 (0x22000 - 0x22000)
        = 0xAA
      unfold memcpy
      rw [if_pos (by decide)]

theorem write_is_not_bounds_checked_witness :
    ∃ r st', write tiny dirtyState 1000 0xAA 7 = some (r, st') :=
  (write_is_not_bounds_checked.1 tiny dirtyState 1000 7 zeros 0xAA (by decide)).2

theorem memcmp_congr (a b a2 b2 : Nat → Byte) (n : Nat)
    (ha : ∀ i, i < n → a2 i = a i) (hb : ∀ i, i < n → b2 i = b i) :
    memcmp a2 b2 n = memcmp a b n := by
  cases h : memcmp a b n
  · rw [memcmp_false_iff] at h ⊢
    intro i hi
    rw [ha i hi, hb i hi]
    exact h i hi
  · rw [memcmp_true_iff] at h ⊢
    obtain ⟨i, hi, hne⟩ := h
    exact ⟨i, hi, by rw [ha i hi, hb i hi]; exact hne⟩

theorem pageDiffers_congr (d : Driver) (st st2 : State) (q : Nat)
    (hsec : st2.bufferSector = st.bufferSector) (hq : q + d.pageSize ≤ d.sectorSize)
    (hbuf : ∀ i, q ≤ i → i < d.sectorSize → st2.buffer i = st.buffer i)
    (hfl : ∀ i, q ≤ i → i < d.sectorSize →
      sectorData d st2.flash st.bufferSector i = sectorData d st.flash st.bufferSector i) :
    pageDiffers d st2 q = pageDiffers d st q := by
  unfold pageDiffers
  rw [hsec]
  apply memcmp_congr
  · intro i hi
    exact hbuf (q + i) (by omega) (by omega)
  · intro i hi
    exact hfl (q + i) (by omega) (by omega)

theorem scanChunk_differs (d : Driver) (hp : Platform d) (st : State) (cp : Nat)
    (hcp : d.pageSize ∣ cp) :
    ∀ fuel cs cs', d.pageSize ∣ cs → cp + cs < d.sectorSize →
      scanChunk d st cp fuel cs = some cs' →
      ∀ q, d.pageSize ∣ q → cp + cs ≤ q → q < cp + cs' → pageDiffers d st q = true := by
  intro fuel
  induction fuel with
  | zero =>
    intro cs cs' _ _ h
    unfold scanChunk at h
    cases h
  | succ fuel ih =>
    intro cs cs' hcs hlt h q hq hq1 hq2
    have hstep : cp + cs + d.pageSize ≤ d.sectorSize :=
      page_step hp.page_dvd (Nat.dvd_add hcp hcs) hlt
    have hS := hp.sector_lt
    have hfirst : ∀ q, d.pageSize ∣ q → cp + cs ≤ q → q < cp + (cs + d.pageSize) →
        q = cp + cs := by
      intro q hq hq1 hq2
      by_contra hne
      have := page_step hq (Nat.dvd_add hcp hcs) (by omega : cp + cs < q)
      omega
    unfold scanChunk at h
    by_cases hm : pageDiffers d st (cp + cs) = true
    · have hm' : memcmp (fun i => st.buffer (cp + cs + i))
          (fun i => sectorData d st.flash st.bufferSector (cp + cs + i)) d.pageSize = true := hm
      rw [if_pos hm'] at h
      have e1 : u32 (cs + d.pageSize) = cs + d.pageSize := u32_of_lt (by omega)
      have e2 : u32 (cp + (cs + d.pageSize)) = cp + (cs + d.pageSize) := u32_of_lt (by omega)
      simp only [e1, e2] at h
      by_cases hend : cp + (cs + d.pageSize) = d.sectorSize
      · rw [if_pos hend] at h
        have hcs' : cs' = cs + d.pageSize := (Option.some.inj h).symm
        subst hcs'
        rw [hfirst q hq hq1 hq2]
        exact hm
      · rw [if_neg hend] at h
        by_cases hq3 : q < cp + (cs + d.pageSize)
        · rw [hfirst q hq hq1 hq3]
          exact hm
        · exact ih (cs + d.pageSize) cs' (Nat.dvd_add hcs (dvd_refl _)) (by omega) h q hq
            (by omega) hq2
    · have hm' : ¬ memcmp (fun i => st.buffer (cp + cs + i))
          (fun i => sectorData d st.flash st.bufferSector (cp + cs + i)) d.pageSize = true := hm
      rw [if_neg hm'] at h
      have hcs' : cs' = cs := (Option.some.inj h).symm
      omega

theorem scanChunk_congr (d : Driver) (hp : Platform d) (st st2 : State) (cp : Nat)
    (hcp : d.pageSize ∣ cp) (hsec : st2.bufferSector = st.bufferSector)
    (hbuf : ∀ i, i < d.sectorSize → st2.buffer i = st.buffer i)
    (hfl : ∀ i, i < d.sectorSize →
      sectorData d st2.flash st.bufferSector i = sectorData d st.flash st.bufferSector i) :
    ∀ fuel cs, d.pageSize ∣ cs → cp + cs < d.sectorSize →
      scanChunk d st2 cp fuel cs = scanChunk d st cp fuel cs := by
  intro fuel
  induction fuel with
  | zero => intro cs _ _; rfl
  | succ fuel ih =>
    intro cs hcs hlt
    have hstep : cp + cs + d.pageSize ≤ d.sectorSize :=
      page_step hp.page_dvd (Nat.dvd_add hcp hcs) hlt
    have hS := hp.sector_lt
    have hpd : pageDiffers d st2 (cp + cs) = pageDiffers d st (cp + cs) :=
      pageDiffers_congr d st st2 (cp + cs) hsec hstep (fun i _ hi => hbuf i hi)
        (fun i _ hi => hfl i hi)
    have e1 : u32 (cs + d.pageSize) = cs + d.pageSize := u32_of_lt (by omega)
    have e2 : u32 (cp + (cs + d.pageSize)) = cp + (cs + d.pageSize) := u32_of_lt (by omega)
    unfold scanChunk
    show (if pageDiffers d st2 (cp + cs) = true then _ else _) =
      (if pageDiffers d st (cp + cs) = true then _ else _)
    rw [hpd]
    by_cases hm : pageDiffers d st (cp + cs) = true
    · rw [if_pos hm, if_pos hm]
      simp only [e1, e2]
      by_cases hend : cp + (cs + d.pageSize) = d.sectorSize
      · rw [if_pos hend, if_pos hend]
      · rw [if_neg hend, if_neg hend]
        exact ih (cs + d.pageSize) (Nat.dvd_add hcs (dvd_refl _)) (by omega)
    · rw [if_neg hm, if_neg hm]

theorem maximalRun_mono (d : Driver) (st0 : State) (cp cp' : Nat) (e : Event) (h : cp ≤ cp')
    (hr : MaximalRun d st0 cp' e) : MaximalRun d st0 cp e := by
  obtain ⟨pos, len, h1, h2, h3⟩ := hr
  exact ⟨pos, len, h1, by omega, h3⟩

theorem not_covers_of_later (d : Driver) (st0 : State) (cp q : Nat) (rest : List Event)
    (hr : ∀ e ∈ rest, MaximalRun d st0 cp e) (hq : q < cp) :
    (rest.filter (coversPage d st0 q)).length = 0 := by
  rw [List.length_eq_zero, List.filter_eq_nil_iff]
  intro e he
  obtain ⟨pos, len, rfl, hpos, -⟩ := hr e he
  unfold coversPage
  simp only [decide_eq_true_eq, not_and]
  intro h
  omega

theorem programChunks_runs (d : Driver) (hp : Platform d) (st0 : State)
    (hok : SectorOk d st0.bufferSector) :
    ∀ fuel (st : State) (cp : Nat), st.buffer = st0.buffer →
      st.bufferSector = st0.bufferSector → d.pageSize ∣ cp → 1 ≤ fuel →
      d.sectorSize < fuel + cp →
      (∀ i, cp ≤ i → i < d.sectorSize →
        st.flash (sectorBase d st0.bufferSector + i) =
          st0.flash (sectorBase d st0.bufferSector + i)) →
      (d.sectorSize ≤ cp ∨ cp = 0 ∨ pageDiffers d st0 (cp - d.pageSize) = false) →
      ∃ st' calls, programChunks d fuel st cp = some st' ∧ st'.log = st.log ++ calls ∧
        (∀ e ∈ calls, MaximalRun d st0 cp e) ∧
        (∀ q, d.pageSize ∣ q → cp ≤ q → q < d.sectorSize →
          (calls.filter (coversPage d st0 q)).length =
            if pageDiffers d st0 q = true then 1 else 0) := by
  intro fuel
  induction fuel with
  | zero => intro st cp _ _ _ h _ _ _; omega
  | succ fuel ih =>
    intro st cp hb hsec hcp _ hfuel hflash hleft
    have hS := hp.sector_lt
    have hP := hp.page_pos
    have hPS : d.pageSize ≤ d.sectorSize := Nat.le_of_dvd hp.sector_pos hp.page_dvd
    unfold programChunks
    by_cases hlt : cp < d.sectorSize
    · rw [if_pos hlt]
      obtain ⟨cs, hscan, -, hcsd, hcsle, hcsend⟩ :=
        scanChunk_spec d hp st cp hcp (d.sectorSize + 1) 0 (dvd_zero _) (by omega) (by omega)
      have hdiff := scanChunk_differs d hp st cp hcp (d.sectorSize + 1) 0 cs (dvd_zero _)
        (by omega) hscan
      simp only [hscan]
      have hbase : u32 (d.offset + st.bufferSector * d.sectorSize + cp) =
          sectorBase d st0.bufferSector + cp := by
        rw [hsec]
        unfold sectorBase
        apply u32_of_lt
        have h1 := hok.2
        have h2 : (st0.bufferSector + 1) * d.sectorSize =
            st0.bufferSector * d.sectorSize + d.sectorSize := by ring
        omega
      have hnext : u32 (cp + cs + d.pageSize) = cp + cs + d.pageSize := u32_of_lt (by omega)
      rw [hnext, hbase]
      -- the pages of the sector from cp on compare in st as they do in st0
      have htrans : ∀ q, cp ≤ q → q + d.pageSize ≤ d.sectorSize →
          pageDiffers d st q = pageDiffers d st0 q := by
        intro q hq1 hq2
        apply pageDiffers_congr d st0 st q hsec hq2
        · intro i _ _
          rw [hb]
        · intro i hi1 hi2
          rw [sectorData_eq d _ _ _ hok, sectorData_eq d _ _ _ hok]
          exact hflash i (by omega) hi2
      have hin : ∀ q, d.pageSize ∣ q → cp ≤ q → q < cp + cs → pageDiffers d st0 q = true := by
        intro q hq hq1 hq2
        have hq3 : q + d.pageSize ≤ cp + cs := page_step (Nat.dvd_add hcp hcsd) hq hq2
        rw [← htrans q hq1 (by omega)]
        exact hdiff q hq (by omega) (by omega)
      have hend : cp + cs = d.sectorSize ∨ pageDiffers d st0 (cp + cs) = false := by
        rcases hcsend with h | ⟨h1, h2⟩
        · exact Or.inl h
        · right
          rw [← htrans (cp + cs) (by omega) h1]
          exact (memcmp_false_iff _ _ _).mpr h2
      -- the state after the program call of this round, and the call itself
      obtain ⟨st1, first, hst1, hb1, hsec1, hfl1, hlog1, hfirst⟩ :
          ∃ (st1 : State) (first : List Event),
            (if cs > 0 then
              { st with
                flash := flash_range_program st.flash (sectorBase d st0.bufferSector + cp)
                  (fun i => st.buffer (cp + i)) cs
                log := st.log ++ [Event.program (sectorBase d st0.bufferSector + cp) cs] }
            else st) = st1 ∧ st1.buffer = st0.buffer ∧ st1.bufferSector = st0.bufferSector ∧
            (∀ a, st1.flash a = flash_range_program st.flash (sectorBase d st0.bufferSector + cp)
                  (fun i => st.buffer (cp + i)) cs a) ∧
            st1.log = st.log ++ first ∧
            first = if cs > 0 then [Event.program (sectorBase d st0.bufferSector + cp) cs]
              else [] := by
        by_cases hcs : cs > 0
        · rw [if_pos hcs, if_pos hcs]
          exact ⟨_, _, rfl, hb, hsec, fun a => rfl, rfl, rfl⟩
        · rw [if_neg hcs, if_neg hcs]
          refine ⟨_, _, rfl, hb, hsec, ?_, by simp, rfl⟩
          intro a
          unfold flash_range_program
          rw [if_neg (by omega)]
      rw [hst1]
      have hflash1 : ∀ i, cp + cs + d.pageSize ≤ i → i < d.sectorSize →
          st1.flash (sectorBase d st0.bufferSector + i) =
            st0.flash (sectorBase d st0.bufferSector + i) := by
        intro i hi1 hi2
        rw [hfl1]
        unfold flash_range_program
        rw [if_neg (by omega)]
        exact hflash i (by omega) hi2
      have hleft1 : d.sectorSize ≤ cp + cs + d.pageSize ∨ cp + cs + d.pageSize = 0 ∨
          pageDiffers d st0 (cp + cs + d.pageSize - d.pageSize) = false := by
        rcases hend with h | h
        · left; omega
        · right; right
          rw [Nat.add_sub_cancel]
          exact h
      obtain ⟨st', rest, h1, h2, h3, h4⟩ :=
        ih st1 (cp + cs + d.pageSize) hb1 hsec1
          (Nat.dvd_add (Nat.dvd_add hcp hcsd) (dvd_refl _)) (by omega) (by omega) hflash1 hleft1
      have hfirstRun : ∀ e ∈ first, MaximalRun d st0 cp e := by
        intro e he
        rw [hfirst] at he
        by_cases hcs : cs > 0
        · rw [if_pos hcs] at he
          simp only [List.mem_singleton] at he
          refine ⟨cp, cs, he, le_refl _, hcp, hcsd, hcs, hcsle, hin, ?_, hend⟩
          rcases hleft with h | h | h
          · omega
          · exact Or.inl h
          · exact Or.inr h
        · rw [if_neg hcs] at he
          simp at he
      refine ⟨st', first ++ rest, h1, ?_, ?_, ?_⟩
      · rw [h2, hlog1, List.append_assoc]
      · intro e he
        rcases List.mem_append.mp he with h | h
        · exact hfirstRun e h
        · exact maximalRun_mono d st0 cp _ e (by omega) (h3 e h)
      · intro q hq hq1 hq2
        rw [List.filter_append, List.length_append]
        by_cases hqa : q < cp + cs
        · -- a page of the chunk programmed in this round
          have hcs : cs > 0 := by omega
          have hq3 : q + d.pageSize ≤ cp + cs := page_step (Nat.dvd_add hcp hcsd) hq hqa
          rw [not_covers_of_later d st0 _ q rest h3 (by omega), hin q hq hq1 hqa, if_pos rfl,
            hfirst, if_pos hcs]
          unfold coversPage
          rw [List.filter_cons_of_pos (by simp only [decide_eq_true_eq]; omega)]
          rfl
        · have hnot : (first.filter (coversPage d st0 q)).length = 0 := by
            rw [List.length_eq_zero, List.filter_eq_nil_iff]
            intro e he
            rw [hfirst] at he
            by_cases hcs : cs > 0
            · rw [if_pos hcs] at he
              simp only [List.mem_singleton] at he
              subst he
              unfold coversPage
              simp only [decide_eq_true_eq, not_and]
              intro _
              omega
            · rw [if_neg hcs] at he
              simp at he
          rw [hnot, Nat.zero_add]
          by_cases hqb : q = cp + cs
          · -- the page that ended the chunk: it is identical and skipped
            rw [not_covers_of_later d st0 _ q rest h3 (by omega)]
            rcases hend with h | h
            · omega
            · rw [hqb, h]
              simp
          · have hq4 : cp + cs + d.pageSize ≤ q :=
              page_step hq (Nat.dvd_add hcp hcsd) (by omega)
            exact h4 q hq hq4 hq2
    · rw [if_neg hlt]
      refine ⟨st, [], rfl, by simp, ?_, ?_⟩
      · intro e he; simp at he
      · intro q _ hq1 hq2
        omega

theorem programChunks_congr (d : Driver) (hp : Platform d) (s : Nat) (hok : SectorOk d s) :
    ∀ fuel (st st2 : State) (cp : Nat), st.bufferSector = s → st2.bufferSector = s →
      d.pageSize ∣ cp → 1 ≤ fuel → d.sectorSize < fuel + cp →
      (∀ i, i < d.sectorSize → st2.buffer i = st.buffer i) →
      (∀ i, i < d.sectorSize → st2.flash (sectorBase d s + i) = st.flash (sectorBase d s + i)) →
      ∃ st' st2' calls, programChunks d fuel st cp = some st' ∧
        programChunks d fuel st2 cp = some st2' ∧ st'.log = st.log ++ calls ∧
        st2'.log = st2.log ++ calls := by
  intro fuel
  induction fuel with
  | zero => intro st st2 cp _ _ _ h _ _ _; omega
  | succ fuel ih =>
    intro st st2 cp hsec hsec2 hcp _ hfuel hbuf hfl
    have hS := hp.sector_lt
    have hP := hp.page_pos
    have hPS : d.pageSize ≤ d.sectorSize := Nat.le_of_dvd hp.sector_pos hp.page_dvd
    unfold programChunks
    by_cases hlt : cp < d.sectorSize
    · rw [if_pos hlt, if_pos hlt]
      obtain ⟨cs, hscan, -, hcsd, hcsle, -⟩ :=
        scanChunk_spec d hp st cp hcp (d.sectorSize + 1) 0 (dvd_zero _) (by omega) (by omega)
      have hscan2 : scanChunk d st2 cp (d.sectorSize + 1) 0 = some cs := by
        rw [scanChunk_congr d hp st st2 cp hcp (hsec2.trans hsec.symm) hbuf ?_
          (d.sectorSize + 1) 0 (dvd_zero _) (by omega)]
        · exact hscan
        · intro i hi
          rw [hsec, sectorData_eq d _ _ _ hok, sectorData_eq d _ _ _ hok]
          exact hfl i hi
      simp only [hscan, hscan2]
      have hbase : ∀ t : State, t.bufferSector = s →
          u32 (d.offset + t.bufferSector * d.sectorSize + cp) = sectorBase d s + cp := by
        intro t ht
        rw [ht]
        unfold sectorBase
        apply u32_of_lt
        have h1 := hok.2
        have h2 : (s + 1) * d.sectorSize = s * d.sectorSize + d.sectorSize := by ring
        omega
      have hnext : u32 (cp + cs + d.pageSize) = cp + cs + d.pageSize := u32_of_lt (by omega)
      rw [hnext, hbase st hsec, hbase st2 hsec2]
      by_cases hcs : cs > 0
      · rw [if_pos hcs, if_pos hcs]
        obtain ⟨st', st2', calls, h1, h2, h3, h4⟩ :=
          ih
            { st with
              flash := flash_range_program st.flash (sectorBase d s + cp)
                (fun i => st.buffer (cp + i)) cs
              log := st.log ++ [Event.program (sectorBase d s + cp) cs] }
            { st2 with
              flash := flash_range_program st2.flash (sectorBase d s + cp)
                (fun i => st2.buffer (cp + i)) cs
              log := st2.log ++ [Event.program (sectorBase d s + cp) cs] }
            (cp + cs + d.pageSize) hsec hsec2
            (Nat.dvd_add (Nat.dvd_add hcp hcsd) (dvd_refl _)) (by omega) (by omega) hbuf
            (by
              intro i hi
              dsimp only
              unfold flash_range_program
              dsimp only
              by_cases hin : sectorBase d s + cp ≤ sectorBase d s + i ∧
                  sectorBase d s + i < sectorBase d s + cp + cs
              · have e : cp + (sectorBase d s + i - (sectorBase d s + cp)) = i := by omega
                rw [if_pos hin, if_pos hin, hfl i hi, e, hbuf i hi]
              · rw [if_neg hin, if_neg hin, hfl i hi])
        refine ⟨st', st2', Event.program (sectorBase d s + cp) cs :: calls, h1, h2, ?_, ?_⟩
        · rw [h3]; simp
        · rw [h4]; simp
      · rw [if_neg hcs, if_neg hcs]
        exact ih st st2 (cp + cs + d.pageSize) hsec hsec2
          (Nat.dvd_add (Nat.dvd_add hcp hcsd) (dvd_refl _)) (by omega) (by omega) hbuf hfl
    · rw [if_neg hlt, if_neg hlt]
      exact ⟨st, st2, [], rfl, rfl, by simp, by simp⟩

/-- C17: the programming loop of writeSector (RP2040 branch), entered in any
state whose cached sector lies inside the address range, with the sector size
a multiple of the page size: the loop comes back; every program call it
issues is a run of whole pages inside the sector, each page of it differing
from the flash, that cannot be extended by a differing page at either end;
a page of the sector is included in exactly one program call when it differs
from the flash and in none when it is identical; and the calls do not depend
on any buffer byte or flash byte outside the sector, so nothing behind the
sector end is compared. -/
theorem programming_covers_differing_pages (d : Driver) (hp : Platform d) (st : State)
    (hok : SectorOk d st.bufferSector) :
    ∃ st' calls, programChunks d (d.sectorSize + 1) st 0 = some st' ∧
      st'.log = st.log ++ calls ∧
      (∀ e ∈ calls, MaximalRun d st 0 e) ∧
      (∀ q, d.pageSize ∣ q → q < d.sectorSize →
        (calls.filter (coversPage d st q)).length =
          if pageDiffers d st q = true then 1 else 0) ∧
      (∀ st2 : State, st2.bufferSector = st.bufferSector →
        (∀ i, i < d.sectorSize → st2.buffer i = st.buffer i) →
        (∀ i, i < d.sectorSize →
          st2.flash (sectorBase d st.bufferSector + i) =
            st.flash (sectorBase d st.bufferSector + i)) →
        ∃ st2', programChunks d (d.sectorSize + 1) st2 0 = some st2' ∧
          st2'.log = st2.log ++ calls) := by
  obtain ⟨st', calls, h1, h2, h3, h4⟩ :=
    programChunks_runs d hp st hok (d.sectorSize + 1) st 0 rfl rfl (dvd_zero _) (by omega)
      (by omega) (fun _ _ _ => rfl) (Or.inr (Or.inl rfl))
  refine ⟨st', calls, h1, h2, h3, fun q hq hq2 => h4 q hq (Nat.zero_le _) hq2, ?_⟩
  intro st2 hsec2 hbuf hfl
  obtain ⟨sta, st2', calls2, g1, g2, g3, g4⟩ :=
    programChunks_congr d hp st.bufferSector hok (d.sectorSize + 1) st st2 0 rfl hsec2
      (dvd_zero _) (by omega) (by omega) hbuf hfl
  have hst : sta = st' := Option.some.inj (g1.symm.trans h1)
  subst hst
  have hcalls : calls2 = calls := List.append_cancel_left (g3.symm.trans h2)
  subst hcalls
  exact ⟨st2', g2, g4⟩

theorem programming_covers_differing_pages_witness :
    ∃ st' calls, programChunks tiny (tiny.sectorSize + 1) dirtyState 0 = some st' ∧
      st'.log = dirtyState.log ++ calls ∧
      (∀ e ∈ calls, MaximalRun tiny dirtyState 0 e) ∧
      (∀ q, tiny.pageSize ∣ q → q < tiny.sectorSize →
        (calls.filter (coversPage tiny dirtyState q)).length =
          if pageDiffers tiny dirtyState q = true then 1 else 0) ∧
      (∀ st2 : State, st2.bufferSector = dirtyState.bufferSector →
        (∀ i, i < tiny.sectorSize → st2.buffer i = dirtyState.buffer i) →
        (∀ i, i < tiny.sectorSize →
          st2.flash (sectorBase tiny dirtyState.bufferSector + i) =
            dirtyState.flash (sectorBase tiny dirtyState.bufferSector + i)) →
        ∃ st2', programChunks tiny (tiny.sectorSize + 1) st2 0 = some st2' ∧
          st2'.log = st2.log ++ calls) :=
  programming_covers_differing_pages tiny (by decide) dirtyState (by decide)

end OpenKNX.Flash
